import Mathlib

/-!
Shallow embedding of the Minesweeper rules engine (`src/main.js`, class `Board`)
and verification of the specification's claims about it.

The JS `Board` mutates a 2-D array of cell objects; here the grid is a total
function `Int × Int → Cell` updated pointwise, and every mutating method
becomes a function `Board → ... → Option (Board × result)`.  `none` models the
`TypeError` the JS code raises when it indexes `this.grid` with an
out-of-range coordinate (`this.grid[y]` is `undefined`); `some` carries the
updated board together with the method's return object.  `Math.random()` is
modelled by an injected `rand : Nat → Nat`: at Fisher–Yates step `i` the JS
`randInt(i+1)` draw is `rand i % (i+1)`, so quantifying over `rand` covers
every possible sequence of draws.  The unbounded BFS `while (q.length)` loop
of `reveal` is embedded with explicit fuel `9*w*h + 1`; the theorem
`bfs_fuel_irrelevant` below shows this fuel can never be exhausted, so the
embedding computes exactly the JS loop's fixed point.
-/

set_option maxHeartbeats 1000000

/-- One grid cell, as created by `Board._initGrid`. -/
structure Cell where
  isMine : Bool
  isRevealed : Bool
  isFlagged : Bool
  isQuestion : Bool
  adj : Int
deriving DecidableEq, Repr

/-- `this.state`: 'ready' | 'playing' | 'won' | 'lost'. -/
inductive GState where
  | ready
  | playing
  | won
  | lost
deriving DecidableEq, Repr

/-- One entry of an `opened` delta list; the optional JS fields
`exploded`, `misflag`, `correctFlag` default to `false` when absent. -/
structure Delta where
  x : Int
  y : Int
  cell : Cell
  exploded : Bool := false
  misflag : Bool := false
  correctFlag : Bool := false
deriving DecidableEq, Repr

/-- Return object of `Board.reveal` and `Board.chord`. -/
structure RevealRes where
  opened : List Delta
  exploded : Bool
  won : Bool := false
deriving DecidableEq, Repr

/-- One entry of `Board.toggleFlag`'s `changed` list: `{x, y, cell}`.  The
`cell` is `none` when the JS read `this.grid[y][x]` produced `undefined`
(row in range, column out of range), which the terminal-phase branch passes
through without ever dereferencing it. -/
structure FlagDelta where
  x : Int
  y : Int
  cell : Option Cell
deriving DecidableEq, Repr

/-- Return object of `Board.toggleFlag`. -/
structure FlagRes where
  changed : List FlagDelta
  sound : Option String
deriving DecidableEq, Repr

/-- The `Board` object's fields.  Counters are `Int` like JS numbers. -/
structure Board where
  w : Nat
  h : Nat
  mineCount : Int
  firstClick : Bool
  state : GState
  revealedCount : Int
  flaggedCount : Int
  grid : Int × Int → Cell

/-- The cell every position starts with (`_initGrid`). -/
def initCell : Cell := ⟨false, false, false, false, 0⟩

/-- `new Board(w, h, mines)`. -/
def mkBoard (w h : Nat) (mines : Int) : Board :=
  { w := w, h := h, mineCount := mines, firstClick := true, state := .ready,
    revealedCount := 0, flaggedCount := 0, grid := fun _ => initCell }

/-- `Board.inBounds`. -/
def inB (w h : Nat) (x y : Int) : Bool :=
  decide (0 ≤ x) && decide (0 ≤ y) && decide (x < (w : Int)) && decide (y < (h : Int))

/-- Write one cell of the grid (mutation of one JS cell object). -/
def setCell (g : Int × Int → Cell) (p : Int × Int) (c : Cell) : Int × Int → Cell :=
  fun q => if q = p then c else g q

/-- All in-bounds coordinates in the iteration order of the JS double loops
(`y` outer, `x` inner). -/
def coordList (w h : Nat) : List (Int × Int) :=
  (List.range h).flatMap (fun y => (List.range w).map (fun x => (Int.ofNat x, Int.ofNat y)))

/-- The eight `(dx, dy)` offsets in the order generated by `Board.neighbors`
(`dy` outer from −1 to 1, `dx` inner, skipping `(0,0)`). -/
def nbrOffsets : List (Int × Int) :=
  [(-1, -1), (0, -1), (1, -1), (-1, 0), (1, 0), (-1, 1), (0, 1), (1, 1)]

/-- `Board.neighbors(x, y)`: in-bounds neighbors, in source order. -/
def neighborsList (w h : Nat) (x y : Int) : List (Int × Int) :=
  (nbrOffsets.map (fun d => (x + d.1, y + d.2))).filter (fun p => inB w h p.1 p.2)

/-- Number of mines among the in-bounds neighbors of `(x, y)`. -/
def mineNbrCount (w h : Nat) (g : Int × Int → Cell) (x y : Int) : Int :=
  (((neighborsList w h x y).filter (fun p => (g p).isMine)).length : Int)

/-- `Board.computeAdjacency`: every in-bounds cell gets its `adj` recomputed
from the (unchanged) mine layout; order of the loop is irrelevant because
only `adj` is written. -/
def computeAdjacency (w h : Nat) (g : Int × Int → Cell) : Int × Int → Cell :=
  fun p =>
    if inB w h p.1 p.2 then
      if (g p).isMine then { g p with adj := -1 }
      else { g p with adj := mineNbrCount w h g p.1 p.2 }
    else g p

/-- Swap two positions of a list (one Fisher–Yates step,
`[pool[i], pool[j]] = [pool[j], pool[i]]`). -/
def lswap (l : List (Int × Int)) (i j : Nat) : List (Int × Int) :=
  match l.get? i, l.get? j with
  | some a, some b => (l.set i b).set j a
  | _, _ => l

/-- The Fisher–Yates loop `for (let i = pool.length - 1; i > 0; i--)`,
recursing on the current index `i`; `j = randInt(i+1)` is `rand i % (i+1)`. -/
def fyLoop (rand : Nat → Nat) (l : List (Int × Int)) : Nat → List (Int × Int)
  | 0 => l
  | i + 1 => fyLoop rand (lswap l (i + 1) (rand (i + 1) % (i + 2))) i

/-- The whole shuffle of `placeMinesAvoiding`. -/
def fyShuffle (rand : Nat → Nat) (l : List (Int × Int)) : List (Int × Int) :=
  fyLoop rand l (l.length - 1)

/-- The `avoid` set of `placeMinesAvoiding`: the clicked cell plus its
in-bounds neighbors.  As a list it is duplicate-free (`avoid_nodup` below),
so its length is the JS `Set`'s size. -/
def avoidList (w h : Nat) (sx sy : Int) : List (Int × Int) :=
  (sx, sy) :: neighborsList w h sx sy

/-- The candidate `pool`: every grid cell not in the avoid set, in the order
of the JS double loop. -/
def poolList (w h : Nat) (sx sy : Int) : List (Int × Int) :=
  (coordList w h).filter (fun p => decide (p ∉ avoidList w h sx sy))

/-- `maxMines = Math.min(this.mineCount, this.w*this.h - avoid.size)`. -/
def maxMinesI (b : Board) (sx sy : Int) : Int :=
  min b.mineCount ((b.w * b.h : Int) - ((avoidList b.w b.h sx sy).length : Int))

/-- The first `maxMines` cells of the shuffled pool: the mined positions. -/
def minesList (rand : Nat → Nat) (b : Board) (sx sy : Int) : List (Int × Int) :=
  (fyShuffle rand (poolList b.w b.h sx sy)).take (maxMinesI b sx sy).toNat

/-- `Board.placeMinesAvoiding(sx, sy)`. -/
def placeMinesAvoiding (rand : Nat → Nat) (b : Board) (sx sy : Int) : Board :=
  let g1 := (minesList rand b sx sy).foldl
    (fun g p => setCell g p { g p with isMine := true }) b.grid
  { b with grid := computeAdjacency b.w b.h g1,
           mineCount := maxMinesI b sx sy, firstClick := false, state := .playing }

/-- `Board.checkWin`. -/
def checkWin (b : Board) : Bool :=
  decide ((b.w * b.h : Int) - b.revealedCount = b.mineCount) && decide (b.state ≠ .lost)

/-- `Board.remainingMines`. -/
def remainingMines (b : Board) : Int := max 0 (b.mineCount - b.flaggedCount)

/-- `Board.toggleFlag(x, y, allowQuestion)`.  The JS method reads
`const c = this.grid[y][x]` before any other check: a `y` out of range makes
`this.grid[y]` itself `undefined`, so the read throws (`none`) in every
phase, while a `y` in range with `x` out of range merely yields
`c = undefined`.  The terminal-phase branch returns that `c` inside its
singleton `changed` entry without dereferencing it; every later branch
starts with `c.isRevealed`, which throws on the `undefined` cell. -/
def toggleFlag (b : Board) (x y : Int) (allowQuestion : Bool) : Option (Board × FlagRes) :=
  if 0 ≤ y ∧ y < (b.h : Int) then
    if b.state = .lost ∨ b.state = .won then
      some (b, ⟨[⟨x, y, if 0 ≤ x ∧ x < (b.w : Int) then some (b.grid (x, y)) else none⟩],
        none⟩)
    else if 0 ≤ x ∧ x < (b.w : Int) then
      let c := b.grid (x, y)
      if c.isRevealed then
        some (b, ⟨[], none⟩)
      else if ¬c.isFlagged ∧ ¬c.isQuestion then
        let c' := { c with isFlagged := true }
        some ({ b with grid := setCell b.grid (x, y) c',
                       flaggedCount := b.flaggedCount + 1 }, ⟨[⟨x, y, some c'⟩], some "flag"⟩)
      else if c.isFlagged then
        if allowQuestion then
          let c' := { c with isFlagged := false, isQuestion := true }
          some ({ b with grid := setCell b.grid (x, y) c',
                         flaggedCount := b.flaggedCount - 1 }, ⟨[⟨x, y, some c'⟩], some "question"⟩)
        else
          let c' := { c with isFlagged := false }
          some ({ b with grid := setCell b.grid (x, y) c',
                         flaggedCount := b.flaggedCount - 1 }, ⟨[⟨x, y, some c'⟩], some "unflag"⟩)
      else if c.isQuestion then
        let c' := { c with isQuestion := false }
        some ({ b with grid := setCell b.grid (x, y) c' }, ⟨[⟨x, y, some c'⟩], some "clear"⟩)
      else
        some (b, ⟨[], none⟩)
    else none
  else none

/-- The BFS flood-fill loop of `Board.reveal`, with explicit fuel.
`q.shift()` pops the front, `q.push` appends, so the queue is FIFO. -/
def bfs (w h : Nat) (fuel : Nat) (b : Board) (q : List (Int × Int))
    (opened : List Delta) : Board × List Delta :=
  match fuel, q with
  | _, [] => (b, opened)
  | 0, _ => (b, opened)
  | fuel + 1, (cx, cy) :: q' =>
    let cell := b.grid (cx, cy)
    if cell.isRevealed ∨ cell.isFlagged then
      bfs w h fuel b q' opened
    else
      let cell' := { cell with isRevealed := true }
      let b' := { b with grid := setCell b.grid (cx, cy) cell',
                         revealedCount := b.revealedCount + 1 }
      let opened' := opened ++ [⟨cx, cy, cell', false, false, false⟩]
      if cell.adj = 0 then
        let pushes := (neighborsList w h cx cy).filter
          (fun p => ¬(b'.grid p).isRevealed ∧ ¬(b'.grid p).isFlagged)
        bfs w h fuel b' (q' ++ pushes) opened'
      else
        bfs w h fuel b' q' opened'

/-- The body of the loss-sweep loop of `Board.reveal`: force-reveal a covered
mine, then emit a `misflag` marker if the (re-read) cell is a flagged
non-mine. -/
def sweepStep (st : ((Int × Int) → Cell) × List Delta) (p : Int × Int) :
    ((Int × Int) → Cell) × List Delta :=
  let cc := st.1 p
  let st' :=
    if cc.isMine ∧ ¬cc.isRevealed then
      (setCell st.1 p { cc with isRevealed := true },
       st.2 ++ [⟨p.1, p.2, { cc with isRevealed := true }, false, false, false⟩])
    else st
  let cc2 := st'.1 p
  if cc2.isFlagged ∧ ¬cc2.isMine then
    (st'.1, st'.2 ++ [⟨p.1, p.2, cc2, false, true, false⟩])
  else st'

/-- The loss sweep of `Board.reveal`: force-reveal every covered mine and
emit a `misflag` marker for every flagged non-mine, in grid order. -/
def lossSweep (w h : Nat) (g0 : Int × Int → Cell) (acc0 : List Delta) :
    ((Int × Int) → Cell) × List Delta :=
  (coordList w h).foldl sweepStep (g0, acc0)

/-- The win sweep of `Board.reveal`: emit a `correctFlag` marker for every
flagged mine (no mutation). -/
def correctFlagSweep (w h : Nat) (g : Int × Int → Cell) : List Delta :=
  ((coordList w h).filter (fun p => (g p).isMine && (g p).isFlagged)).map
    (fun p => ⟨p.1, p.2, g p, false, false, true⟩)

/-- `Board.reveal(x, y)`.  The phase guard precedes the grid access, so a
terminal board returns the empty result even out of bounds; otherwise an
out-of-bounds access throws (`none`). -/
def reveal (rand : Nat → Nat) (b : Board) (x y : Int) : Option (Board × RevealRes) :=
  if b.state = .lost ∨ b.state = .won then some (b, ⟨[], false, false⟩)
  else if inB b.w b.h x y then
    let c := b.grid (x, y)
    if c.isFlagged ∨ c.isRevealed then some (b, ⟨[], false, false⟩)
    else
      let b1 := if b.firstClick then placeMinesAvoiding rand b x y else b
      let c1 := b1.grid (x, y)
      if c1.isMine then
        let g' := setCell b1.grid (x, y) { c1 with isRevealed := true }
        let sw := lossSweep b1.w b1.h g' [⟨x, y, { c1 with isRevealed := true }, true, false, false⟩]
        some ({ b1 with grid := sw.1, state := .lost }, ⟨sw.2, true, false⟩)
      else
        let fl := bfs b1.w b1.h (9 * (b1.w * b1.h) + 1) b1 [(x, y)] []
        let b2 := fl.1
        let won := checkWin b2
        if won then
          some ({ b2 with state := .won },
                ⟨fl.2 ++ correctFlagSweep b2.w b2.h b2.grid, false, true⟩)
        else
          some (b2, ⟨fl.2, false, false⟩)
  else none

/-- The neighbor loop of `Board.chord`: re-reads each neighbor from the
current grid, reveals it when unflagged and unrevealed, and accumulates
`exploded` and the opened deltas. -/
def chordLoop (rand : Nat → Nat) (b : Board) :
    List (Int × Int) → Bool → List Delta → Option (Board × Bool × List Delta)
  | [], expl, op => some (b, expl, op)
  | p :: rest, expl, op =>
    let n := b.grid p
    if ¬n.isFlagged ∧ ¬n.isRevealed then
      match reveal rand b p.1 p.2 with
      | none => none
      | some (b', res) => chordLoop rand b' rest (expl || res.exploded) (op ++ res.opened)
    else chordLoop rand b rest expl op

/-- `Board.chord(x, y)`.  The `state !== 'playing'` guard precedes the grid
access, so only an in-progress board can throw on bad coordinates. -/
def chord (rand : Nat → Nat) (b : Board) (x y : Int) : Option (Board × RevealRes) :=
  if b.state ≠ .playing then some (b, ⟨[], false, false⟩)
  else if inB b.w b.h x y then
    let c := b.grid (x, y)
    if ¬c.isRevealed ∨ c.adj ≤ 0 then some (b, ⟨[], false, false⟩)
    else
      let flags := ((neighborsList b.w b.h x y).filter (fun p => (b.grid p).isFlagged)).length
      if (flags : Int) ≠ c.adj then some (b, ⟨[], false, false⟩)
      else
        match chordLoop rand b (neighborsList b.w b.h x y) false [] with
        | none => none
        | some (b', expl, opened) => some (b', ⟨opened, expl, checkWin b'⟩)
  else none

/-- The reachable states of the engine: a fresh board (the UI only constructs
boards with a nonnegative mine request) followed by any sequence of the three
mutating operations with any coordinates and random draws. -/
inductive Reachable : Board → Prop where
  | init (w h : Nat) (m : Int) (hm : 0 ≤ m) : Reachable (mkBoard w h m)
  | reveal {b b' : Board} {res : RevealRes} (rand : Nat → Nat) (x y : Int) :
      Reachable b → reveal rand b x y = some (b', res) → Reachable b'
  | flag {b b' : Board} {res : FlagRes} (x y : Int) (q : Bool) :
      Reachable b → toggleFlag b x y q = some (b', res) → Reachable b'
  | chord {b b' : Board} {res : RevealRes} (rand : Nat → Nat) (x y : Int) :
      Reachable b → chord rand b x y = some (b', res) → Reachable b'

/-! ### Basic facts about coordinates, neighbors, and grid updates -/

theorem setCell_same (g : Int × Int → Cell) (p : Int × Int) (c : Cell) :
    setCell g p c p = c := by simp [setCell]

theorem setCell_other (g : Int × Int → Cell) (p q : Int × Int) (c : Cell) (h : q ≠ p) :
    setCell g p c q = g q := by simp [setCell, h]

theorem inB_iff {w h : Nat} {x y : Int} :
    inB w h x y = true ↔ 0 ≤ x ∧ 0 ≤ y ∧ x < (w : Int) ∧ y < (h : Int) := by
  simp [inB, and_assoc]

theorem mem_coordList {w h : Nat} {p : Int × Int} :
    p ∈ coordList w h ↔ inB w h p.1 p.2 = true := by
  obtain ⟨px, py⟩ := p
  constructor
  · intro hp
    rw [coordList, List.mem_flatMap] at hp
    obtain ⟨yy, hy, hmem⟩ := hp
    rw [List.mem_map] at hmem
    obtain ⟨xx, hx, heq⟩ := hmem
    rw [List.mem_range] at hy
    rw [List.mem_range] at hx
    have h1 : (xx : Int) = px := congrArg Prod.fst heq
    have h2 : (yy : Int) = py := congrArg Prod.snd heq
    rw [inB_iff]
    dsimp only
    refine ⟨by omega, by omega, by omega, by omega⟩
  · intro hp
    rw [inB_iff] at hp
    dsimp only at hp
    obtain ⟨h1, h2, h3, h4⟩ := hp
    rw [coordList, List.mem_flatMap]
    refine ⟨py.toNat, List.mem_range.mpr (by omega), ?_⟩
    rw [List.mem_map]
    refine ⟨px.toNat, List.mem_range.mpr (by omega), ?_⟩
    rw [Prod.mk.injEq]
    simp only [Int.ofNat_eq_natCast]
    exact ⟨by omega, by omega⟩

theorem coordList_nodup (w h : Nat) : (coordList w h).Nodup := by
  rw [coordList, List.nodup_flatMap]
  constructor
  · intro y _
    refine List.Nodup.map ?_ (List.nodup_range w)
    intro a b hab
    have h1 := congrArg Prod.fst hab
    dsimp only at h1
    rw [Int.ofNat_eq_natCast, Int.ofNat_eq_natCast] at h1
    omega
  · have hP : (List.range h).Pairwise (· < ·) := (List.pairwise_lt_range h)
    refine hP.imp ?_
    intro y1 y2 hlt p hp1 hp2
    rw [List.mem_map] at hp1
    rw [List.mem_map] at hp2
    obtain ⟨a, -, ha⟩ := hp1
    obtain ⟨b, -, hb⟩ := hp2
    have h1 := congrArg Prod.snd ha
    have h2 := congrArg Prod.snd hb
    rw [← hb] at ha
    have h3 := congrArg Prod.snd ha
    dsimp only at h3
    rw [Int.ofNat_eq_natCast, Int.ofNat_eq_natCast] at h3
    omega

theorem coordList_length (w h : Nat) : (coordList w h).length = w * h := by
  simp [coordList, List.length_flatMap, Function.comp_def, mul_comm]

theorem mem_neighborsList_inB {w h : Nat} {x y : Int} {p : Int × Int}
    (hp : p ∈ neighborsList w h x y) : inB w h p.1 p.2 = true := by
  simp only [neighborsList, List.mem_filter] at hp
  exact hp.2

theorem mem_neighborsList_coords {w h : Nat} {x y : Int} {p : Int × Int}
    (hp : p ∈ neighborsList w h x y) : p ∈ coordList w h :=
  mem_coordList.mpr (mem_neighborsList_inB hp)

theorem neighborsList_length_le (w h : Nat) (x y : Int) :
    (neighborsList w h x y).length ≤ 8 := by
  calc (neighborsList w h x y).length ≤ (nbrOffsets.map (fun d => (x + d.1, y + d.2))).length :=
        List.length_filter_le _ _
    _ = 8 := by simp [nbrOffsets]

theorem neighborsList_nodup (w h : Nat) (x y : Int) : (neighborsList w h x y).Nodup := by
  apply List.Nodup.filter
  apply List.Nodup.map
  · intro a b hab
    have h1 := congrArg Prod.fst hab
    have h2 := congrArg Prod.snd hab
    simp only at h1 h2
    exact Prod.ext (by omega) (by omega)
  · decide

theorem center_not_mem_neighbors (w h : Nat) (x y : Int) :
    (x, y) ∉ neighborsList w h x y := by
  intro hmem
  simp only [neighborsList, List.mem_filter, List.mem_map] at hmem
  obtain ⟨⟨d, hd, heq⟩, -⟩ := hmem
  have h1 := congrArg Prod.fst heq
  have h2 := congrArg Prod.snd heq
  simp only at h1 h2
  have hd1 : d.1 = 0 := by omega
  have hd2 : d.2 = 0 := by omega
  revert hd
  have : d = ((0 : Int), (0 : Int)) := Prod.ext hd1 hd2
  rw [this]
  decide

theorem avoid_nodup (w h : Nat) (x y : Int) :
    ((x, y) :: neighborsList w h x y).Nodup :=
  List.nodup_cons.mpr ⟨center_not_mem_neighbors w h x y, neighborsList_nodup w h x y⟩

/-! ### Counting helpers -/

theorem countP_agree {α : Type} {l : List α} {f g : α → Bool}
    (h : ∀ a ∈ l, f a = g a) : l.countP f = l.countP g :=
  List.countP_congr (fun x hx => by rw [h x hx])

theorem countP_setCell {l : List (Int × Int)} (hnd : l.Nodup) {p : Int × Int} (hp : p ∈ l)
    (g : Int × Int → Cell) (c : Cell) (f : Cell → Bool) :
    l.countP (fun q => f (setCell g p c q)) + (if f (g p) then 1 else 0)
      = l.countP (fun q => f (g q)) + (if f c then 1 else 0) := by
  obtain ⟨s, t, rfl⟩ := List.append_of_mem hp
  have hnd' := List.nodup_append.mp hnd
  have hps : p ∉ s := fun hmem => hnd'.2.2 hmem (List.mem_cons_self _ _)
  have hpt : p ∉ t := (List.nodup_cons.mp hnd'.2.1).1
  have hs : s.countP (fun q => f (setCell g p c q)) = s.countP (fun q => f (g q)) :=
    countP_agree (fun a ha => by rw [setCell_other g p a c (fun hq => hps (hq ▸ ha))])
  have ht : t.countP (fun q => f (setCell g p c q)) = t.countP (fun q => f (g q)) :=
    countP_agree (fun a ha => by rw [setCell_other g p a c (fun hq => hpt (hq ▸ ha))])
  simp only [List.countP_append, List.countP_cons, setCell_same, hs, ht]
  omega

theorem countP_mem_of_nodup {S l : List (Int × Int)} (hS : S.Nodup)
    (hsub : ∀ x ∈ S, x ∈ l) (hl : l.Nodup) :
    l.countP (fun p => decide (p ∈ S)) = S.length := by
  induction S generalizing l with
  | nil => simp
  | cons a S' ih =>
    have hnd := List.nodup_cons.mp hS
    have ha : a ∈ l := hsub a (List.mem_cons_self _ _)
    obtain ⟨s, t, rfl⟩ := List.append_of_mem ha
    have hnd' := List.nodup_append.mp hl
    have has : a ∉ s := fun hmem => hnd'.2.2 hmem (List.mem_cons_self _ _)
    have hat : a ∉ t := (List.nodup_cons.mp hnd'.2.1).1
    have hrec : (s ++ t).countP (fun p => decide (p ∈ S')) = S'.length := by
      apply ih hnd.2
      · intro x hx
        have hxl : x ∈ s ++ a :: t := hsub x (List.mem_cons_of_mem a hx)
        have hxa : x ≠ a := fun hq => hnd.1 (hq ▸ hx)
        simp only [List.mem_append, List.mem_cons] at hxl ⊢
        rcases hxl with h1 | h1 | h1
        · exact Or.inl h1
        · exact absurd h1 hxa
        · exact Or.inr h1
      · rw [List.nodup_append]
        exact ⟨hnd'.1, (List.nodup_cons.mp hnd'.2.1).2,
          fun x hx1 hx2 => hnd'.2.2 hx1 (List.mem_cons_of_mem a hx2)⟩
    have hsplit : ∀ (u : List (Int × Int)), a ∉ u →
        u.countP (fun p => decide (p ∈ a :: S')) = u.countP (fun p => decide (p ∈ S')) := by
      intro u hau
      apply countP_agree
      intro x hx
      have hxa : x ≠ a := fun hq => hau (hq ▸ hx)
      simp [List.mem_cons, hxa]
    rw [List.countP_append] at hrec
    rw [List.countP_append, List.countP_cons]
    rw [hsplit s has, hsplit t hat]
    have haS : (decide (a ∈ a :: S') : Bool) = true := by simp
    rw [haS]
    simp only [List.length_cons, if_pos]
    omega

/-! ### The shuffle is a permutation -/

theorem cons_set_perm {α : Type} (t : List α) :
    ∀ (m : Nat) (a b : α), t.get? m = some b → List.Perm (b :: t.set m a) (a :: t) := by
  induction t with
  | nil => intro m a b h; simp at h
  | cons c t' ih =>
    intro m a b h
    cases m with
    | zero =>
      rw [List.get?_cons_zero] at h
      injection h with h'
      rw [h']
      simpa using List.Perm.swap a b t'
    | succ k =>
      simp only [List.get?_cons_succ] at h
      have h1 : List.Perm (b :: (c :: t').set (k+1) a) (b :: c :: t'.set k a) := by simp
      have h2 : List.Perm (b :: c :: t'.set k a) (c :: b :: t'.set k a) := List.Perm.swap c b _
      have h3 : List.Perm (c :: b :: t'.set k a) (c :: (a :: t')) := List.Perm.cons c (ih k a b h)
      have h4 : List.Perm (c :: a :: t') (a :: c :: t') := List.Perm.swap a c t'
      exact ((h1.trans h2).trans h3).trans h4

theorem set_set_perm {α : Type} : ∀ (l : List α) (i j : Nat) (a b : α),
    l.get? i = some a → l.get? j = some b → List.Perm ((l.set i b).set j a) l := by
  intro l
  induction l with
  | nil => intro i j a b hi _; simp at hi
  | cons x t ih =>
    intro i j a b hi hj
    cases i with
    | zero =>
      rw [List.get?_cons_zero] at hi; injection hi with hi'
      cases j with
      | zero =>
        rw [hi']; simp
      | succ k =>
        rw [List.get?_cons_succ] at hj
        rw [hi']
        simpa using cons_set_perm t k a b hj
    | succ m =>
      rw [List.get?_cons_succ] at hi
      cases j with
      | zero =>
        rw [List.get?_cons_zero] at hj; injection hj with hj'
        rw [hj']
        simpa using cons_set_perm t m b a hi
      | succ k =>
        rw [List.get?_cons_succ] at hj
        simpa using ih m k a b hi hj

theorem lswap_perm (l : List (Int × Int)) (i j : Nat) : List.Perm (lswap l i j) l := by
  unfold lswap
  cases hi : l.get? i with
  | none => simp
  | some a =>
    cases hj : l.get? j with
    | none => simp
    | some b =>
      simp only
      exact set_set_perm l i j a b hi hj

theorem fyLoop_perm (rand : Nat → Nat) : ∀ (n : Nat) (l : List (Int × Int)),
    List.Perm (fyLoop rand l n) l := by
  intro n
  induction n with
  | zero => intro l; exact List.Perm.refl l
  | succ i ih =>
    intro l
    exact (ih _).trans (lswap_perm l (i + 1) (rand (i + 1) % (i + 2)))

theorem fyShuffle_perm (rand : Nat → Nat) (l : List (Int × Int)) :
    List.Perm (fyShuffle rand l) l :=
  fyLoop_perm rand (l.length - 1) l

/-! ### Mine placement -/

theorem avoidList_nodup (w h : Nat) (sx sy : Int) : (avoidList w h sx sy).Nodup :=
  avoid_nodup w h sx sy

theorem avoidList_sub_coords {w h : Nat} {sx sy : Int} (hin : inB w h sx sy = true) :
    ∀ p ∈ avoidList w h sx sy, p ∈ coordList w h := by
  intro p hp
  rcases List.mem_cons.mp hp with rfl | hp'
  · exact mem_coordList.mpr hin
  · exact mem_neighborsList_coords hp'

theorem mem_poolList {w h : Nat} {sx sy : Int} {p : Int × Int} :
    p ∈ poolList w h sx sy ↔ p ∈ coordList w h ∧ p ∉ avoidList w h sx sy := by
  simp [poolList, List.mem_filter]

theorem poolList_nodup (w h : Nat) (sx sy : Int) : (poolList w h sx sy).Nodup :=
  (coordList_nodup w h).filter _

theorem poolList_length {w h : Nat} {sx sy : Int} (hin : inB w h sx sy = true) :
    (poolList w h sx sy).length + (avoidList w h sx sy).length = w * h := by
  have h1 : (poolList w h sx sy).length
      = (coordList w h).countP (fun p => decide (p ∉ avoidList w h sx sy)) :=
    (List.countP_eq_length_filter _ _).symm
  have h2 := List.length_eq_countP_add_countP
    (fun p => decide (p ∈ avoidList w h sx sy)) (coordList w h)
  have h2' : (coordList w h).countP
        (fun a => decide (¬(decide (a ∈ avoidList w h sx sy) = true)))
      = (coordList w h).countP (fun p => decide (p ∉ avoidList w h sx sy)) :=
    countP_agree (fun a _ => by by_cases hmem : a ∈ avoidList w h sx sy <;> simp [hmem])
  rw [h2'] at h2
  have h3 : (coordList w h).countP (fun p => decide (p ∈ avoidList w h sx sy))
      = (avoidList w h sx sy).length :=
    countP_mem_of_nodup (avoidList_nodup w h sx sy) (avoidList_sub_coords hin)
      (coordList_nodup w h)
  rw [h1, coordList_length] at *
  omega

theorem shuffledPool_nodup (rand : Nat → Nat) (w h : Nat) (sx sy : Int) :
    (fyShuffle rand (poolList w h sx sy)).Nodup :=
  (fyShuffle_perm rand _).nodup_iff.mpr (poolList_nodup w h sx sy)

theorem mem_shuffledPool {rand : Nat → Nat} {w h : Nat} {sx sy : Int} {p : Int × Int} :
    p ∈ fyShuffle rand (poolList w h sx sy) ↔ p ∈ poolList w h sx sy :=
  (fyShuffle_perm rand _).mem_iff

theorem minesList_nodup (rand : Nat → Nat) (b : Board) (sx sy : Int) :
    (minesList rand b sx sy).Nodup :=
  (shuffledPool_nodup rand b.w b.h sx sy).sublist (List.take_sublist _ _)

theorem minesList_sub_pool {rand : Nat → Nat} {b : Board} {sx sy : Int} {p : Int × Int}
    (hp : p ∈ minesList rand b sx sy) : p ∈ poolList b.w b.h sx sy :=
  mem_shuffledPool.mp (List.take_subset _ _ hp)

theorem minesList_length {rand : Nat → Nat} {b : Board} {sx sy : Int}
    (hin : inB b.w b.h sx sy = true) (hm : 0 ≤ b.mineCount) :
    ((minesList rand b sx sy).length : Int) = maxMinesI b sx sy := by
  have hperm := (fyShuffle_perm rand (poolList b.w b.h sx sy)).length_eq
  have hpool := poolList_length hin
  have havoid : 1 ≤ (avoidList b.w b.h sx sy).length := by
    simp [avoidList]
  rw [minesList, List.length_take, hperm]
  rw [maxMinesI] at *
  omega

theorem foldl_setMine_apply (mines : List (Int × Int)) :
    ∀ (g : Int × Int → Cell) (p : Int × Int),
    (mines.foldl (fun g p => setCell g p { g p with isMine := true }) g) p
      = if p ∈ mines then { g p with isMine := true } else g p := by
  induction mines with
  | nil => intro g p; simp
  | cons a rest ih =>
    intro g p
    rw [List.foldl_cons, ih]
    by_cases hpa : p = a
    · subst hpa
      by_cases hpr : p ∈ rest <;> simp [hpr, setCell_same]
    · have : setCell g a { g a with isMine := true } p = g p := setCell_other _ _ _ _ hpa
      by_cases hpr : p ∈ rest <;> simp [hpr, List.mem_cons, hpa, this]

/-! ### Pointwise characterization of placement -/

theorem computeAdjacency_isMine (w h : Nat) (g : Int × Int → Cell) (p : Int × Int) :
    (computeAdjacency w h g p).isMine = (g p).isMine := by
  unfold computeAdjacency
  split <;> [skip; rfl]
  split <;> rfl

theorem computeAdjacency_isRevealed (w h : Nat) (g : Int × Int → Cell) (p : Int × Int) :
    (computeAdjacency w h g p).isRevealed = (g p).isRevealed := by
  unfold computeAdjacency
  split <;> [skip; rfl]
  split <;> rfl

theorem computeAdjacency_isFlagged (w h : Nat) (g : Int × Int → Cell) (p : Int × Int) :
    (computeAdjacency w h g p).isFlagged = (g p).isFlagged := by
  unfold computeAdjacency
  split <;> [skip; rfl]
  split <;> rfl

theorem computeAdjacency_isQuestion (w h : Nat) (g : Int × Int → Cell) (p : Int × Int) :
    (computeAdjacency w h g p).isQuestion = (g p).isQuestion := by
  unfold computeAdjacency
  split <;> [skip; rfl]
  split <;> rfl

theorem foldMine_isMine (mines : List (Int × Int)) (g : Int × Int → Cell) (p : Int × Int) :
    ((mines.foldl (fun g p => setCell g p { g p with isMine := true }) g) p).isMine
      = (decide (p ∈ mines) || (g p).isMine) := by
  rw [foldl_setMine_apply]
  by_cases hp : p ∈ mines <;> simp [hp]

theorem foldMine_isRevealed (mines : List (Int × Int)) (g : Int × Int → Cell) (p : Int × Int) :
    ((mines.foldl (fun g p => setCell g p { g p with isMine := true }) g) p).isRevealed
      = (g p).isRevealed := by
  rw [foldl_setMine_apply]
  by_cases hp : p ∈ mines <;> simp [hp]

theorem foldMine_isFlagged (mines : List (Int × Int)) (g : Int × Int → Cell) (p : Int × Int) :
    ((mines.foldl (fun g p => setCell g p { g p with isMine := true }) g) p).isFlagged
      = (g p).isFlagged := by
  rw [foldl_setMine_apply]
  by_cases hp : p ∈ mines <;> simp [hp]

theorem foldMine_isQuestion (mines : List (Int × Int)) (g : Int × Int → Cell) (p : Int × Int) :
    ((mines.foldl (fun g p => setCell g p { g p with isMine := true }) g) p).isQuestion
      = (g p).isQuestion := by
  rw [foldl_setMine_apply]
  by_cases hp : p ∈ mines <;> simp [hp]

theorem placeMines_isMine (rand : Nat → Nat) (b : Board) (sx sy : Int) (p : Int × Int) :
    ((placeMinesAvoiding rand b sx sy).grid p).isMine
      = (decide (p ∈ minesList rand b sx sy) || (b.grid p).isMine) := by
  show (computeAdjacency b.w b.h _ p).isMine = _
  rw [computeAdjacency_isMine, foldMine_isMine]

theorem placeMines_isRevealed (rand : Nat → Nat) (b : Board) (sx sy : Int) (p : Int × Int) :
    ((placeMinesAvoiding rand b sx sy).grid p).isRevealed = (b.grid p).isRevealed := by
  show (computeAdjacency b.w b.h _ p).isRevealed = _
  rw [computeAdjacency_isRevealed, foldMine_isRevealed]

theorem placeMines_isFlagged (rand : Nat → Nat) (b : Board) (sx sy : Int) (p : Int × Int) :
    ((placeMinesAvoiding rand b sx sy).grid p).isFlagged = (b.grid p).isFlagged := by
  show (computeAdjacency b.w b.h _ p).isFlagged = _
  rw [computeAdjacency_isFlagged, foldMine_isFlagged]

theorem placeMines_isQuestion (rand : Nat → Nat) (b : Board) (sx sy : Int) (p : Int × Int) :
    ((placeMinesAvoiding rand b sx sy).grid p).isQuestion = (b.grid p).isQuestion := by
  show (computeAdjacency b.w b.h _ p).isQuestion = _
  rw [computeAdjacency_isQuestion, foldMine_isQuestion]

/-! ### The invariants of reachable boards -/

/-- The board's own coordinate list. -/
def coords (b : Board) : List (Int × Int) := coordList b.w b.h

/-- Number of revealed non-mine cells on the grid. -/
def cntRevSafe (b : Board) : Nat :=
  (coords b).countP (fun p => (b.grid p).isRevealed && !(b.grid p).isMine)

/-- Number of flagged cells on the grid. -/
def cntFlag (b : Board) : Nat := (coords b).countP (fun p => (b.grid p).isFlagged)

/-- Number of mine cells on the grid. -/
def cntMine (b : Board) : Nat := (coords b).countP (fun p => (b.grid p).isMine)

/-- The two running counters agree with the grid. -/
def CountersOK (b : Board) : Prop :=
  b.revealedCount = (cntRevSafe b : Int) ∧ b.flaggedCount = (cntFlag b : Int)

/-- Every stored `adj` field agrees with the mine layout. -/
def AdjOK (b : Board) : Prop :=
  ∀ p ∈ coords b,
    (if (b.grid p).isMine = true then (b.grid p).adj = -1
     else (b.grid p).adj = mineNbrCount b.w b.h b.grid p.1 p.2)

/-- A revealed cell can only still be flagged if it is a mine (force-revealed
by the loss sweep). -/
def FlagRevOK (b : Board) : Prop :=
  ∀ p ∈ coords b, (b.grid p).isRevealed = true → (b.grid p).isFlagged = true →
    (b.grid p).isMine = true

/-- Phase bookkeeping: before the first successful reveal the board is fresh;
afterwards `mineCount` equals the number of placed mines; outside the lost
phase no mine is revealed. -/
def PhaseOK (b : Board) : Prop :=
  (b.firstClick = true → b.state = .ready ∧ 0 ≤ b.mineCount ∧
    (∀ p ∈ coords b, (b.grid p).isMine = false ∧ (b.grid p).isRevealed = false))
  ∧ (b.firstClick = false → b.state ≠ .ready ∧ b.mineCount = (cntMine b : Int))
  ∧ (b.state ≠ .lost → ∀ p ∈ coords b, (b.grid p).isRevealed = true →
      (b.grid p).isMine = false)

/-- The full inductive invariant. -/
def BoardInv (b : Board) : Prop := CountersOK b ∧ AdjOK b ∧ FlagRevOK b ∧ PhaseOK b

theorem inv_mkBoard (w h : Nat) (m : Int) (hm : 0 ≤ m) : BoardInv (mkBoard w h m) := by
  refine ⟨⟨by simp [mkBoard, cntRevSafe, coords, initCell],
           by simp [mkBoard, cntFlag, coords, initCell]⟩, ?_, ?_, ?_, ?_, ?_⟩
  · intro p _
    simp [mkBoard, initCell, mineNbrCount, neighborsList]
  · intro p _ _ hflag
    simp [mkBoard, initCell] at hflag
  · intro _
    exact ⟨rfl, hm, fun p _ => by simp [mkBoard, initCell]⟩
  · intro hfc
    simp [mkBoard] at hfc
  · intro _ p _ hrev
    simp [mkBoard, initCell] at hrev

theorem mineNbrCount_congr {w h : Nat} {g g' : Int × Int → Cell} {x y : Int}
    (hagree : ∀ p ∈ neighborsList w h x y, (g p).isMine = (g' p).isMine) :
    mineNbrCount w h g x y = mineNbrCount w h g' x y := by
  unfold mineNbrCount
  rw [List.filter_congr (fun a ha => by rw [hagree a ha])]

theorem computeAdjacency_adj {w h : Nat} {g : Int × Int → Cell} {p : Int × Int}
    (hin : inB w h p.1 p.2 = true) :
    (computeAdjacency w h g p).adj
      = if (g p).isMine = true then -1 else mineNbrCount w h g p.1 p.2 := by
  unfold computeAdjacency
  rw [if_pos hin]
  by_cases hm : (g p).isMine = true <;> simp [hm]

theorem placeMines_adj {rand : Nat → Nat} {b : Board} {sx sy : Int} {p : Int × Int}
    (hin : inB b.w b.h p.1 p.2 = true) :
    ((placeMinesAvoiding rand b sx sy).grid p).adj
      = if ((placeMinesAvoiding rand b sx sy).grid p).isMine = true then -1
        else mineNbrCount b.w b.h (placeMinesAvoiding rand b sx sy).grid p.1 p.2 := by
  have hmine : ∀ q : Int × Int,
      ((placeMinesAvoiding rand b sx sy).grid q).isMine
        = (((minesList rand b sx sy).foldl
            (fun g p => setCell g p { g p with isMine := true }) b.grid) q).isMine := by
    intro q
    rw [placeMines_isMine, foldMine_isMine]
  show (computeAdjacency b.w b.h _ p).adj = _
  rw [computeAdjacency_adj hin]
  rw [hmine p, @mineNbrCount_congr b.w b.h _ ((placeMinesAvoiding rand b sx sy).grid) p.1 p.2
    (fun q _ => (hmine q).symm)]

theorem inv_placeMines {rand : Nat → Nat} {b : Board} {sx sy : Int}
    (hinv : BoardInv b) (hfc : b.firstClick = true) (hin : inB b.w b.h sx sy = true) :
    BoardInv (placeMinesAvoiding rand b sx sy) := by
  obtain ⟨⟨hrc, hfcnt⟩, hadj, hfr, hph1, hph2, hph3⟩ := hinv
  obtain ⟨hready, hm0, hfresh⟩ := hph1 hfc
  set b' := placeMinesAvoiding rand b sx sy with hb'
  have hw : b'.w = b.w := rfl
  have hh : b'.h = b.h := rfl
  have hcoords : coords b' = coords b := rfl
  have hrev' : ∀ p ∈ coords b, (b'.grid p).isRevealed = false := by
    intro p hp
    rw [hb', placeMines_isRevealed]
    exact (hfresh p hp).2
  have hflag' : ∀ p : Int × Int, (b'.grid p).isFlagged = (b.grid p).isFlagged := by
    intro p
    rw [hb', placeMines_isFlagged]
  have hmine' : ∀ p ∈ coords b,
      (b'.grid p).isMine = decide (p ∈ minesList rand b sx sy) := by
    intro p hp
    rw [hb', placeMines_isMine, (hfresh p hp).1, Bool.or_false]
  refine ⟨⟨?_, ?_⟩, ?_, ?_, ?_, ?_, ?_⟩
  · -- revealedCount
    have h1 : cntRevSafe b' = 0 := by
      unfold cntRevSafe
      rw [show coords b' = coords b from rfl]
      rw [countP_agree (g := fun _ => false)
        (fun p hp => by rw [hrev' p hp]; simp)]
      simp
    have h2 : cntRevSafe b = 0 := by
      unfold cntRevSafe
      rw [countP_agree (g := fun _ => false)
        (fun p hp => by rw [(hfresh p hp).2]; simp)]
      simp
    have : b'.revealedCount = b.revealedCount := rfl
    rw [this, h1, hrc, h2]
  · -- flaggedCount
    have h1 : cntFlag b' = cntFlag b := by
      unfold cntFlag
      rw [show coords b' = coords b from rfl]
      exact countP_agree (fun p _ => by rw [hflag' p])
    have : b'.flaggedCount = b.flaggedCount := rfl
    rw [this, h1, hfcnt]
  · -- AdjOK
    intro p hp
    have hin' : inB b.w b.h p.1 p.2 = true := mem_coordList.mp hp
    have := @placeMines_adj rand b sx sy p hin'
    by_cases hm : (b'.grid p).isMine = true
    · rw [if_pos hm]
      rw [hm] at this
      simpa using this
    · rw [if_neg hm]
      rw [eq_false_of_ne_true hm] at this
      simpa using this
  · -- FlagRevOK
    intro p hp hrev
    rw [hrev' p hp] at hrev
    exact absurd hrev (by simp)
  · -- PhaseOK first clause
    intro hfc'
    have : b'.firstClick = false := rfl
    rw [this] at hfc'
    exact absurd hfc' (by simp)
  · -- PhaseOK second clause
    intro _
    constructor
    · show GState.playing ≠ GState.ready
      simp
    · show maxMinesI b sx sy = (cntMine b' : Int)
      have h1 : cntMine b'
          = (coords b).countP (fun p => decide (p ∈ minesList rand b sx sy)) := by
        unfold cntMine
        rw [show coords b' = coords b from rfl]
        exact countP_agree (fun p hp => hmine' p hp)
      have h2 : (coords b).countP (fun p => decide (p ∈ minesList rand b sx sy))
          = (minesList rand b sx sy).length := by
        apply countP_mem_of_nodup (minesList_nodup rand b sx sy) _ (coordList_nodup b.w b.h)
        intro q hq
        exact (mem_poolList.mp (minesList_sub_pool hq)).1
      rw [h1, h2, ← @minesList_length rand b sx sy hin hm0]
  · -- PhaseOK third clause
    intro _ p hp hrev
    rw [hrev' p hp] at hrev
    exact absurd hrev (by simp)

theorem placeMines_avoid_mineFree {rand : Nat → Nat} {b : Board} {sx sy : Int}
    (hfresh : ∀ p ∈ coords b, (b.grid p).isMine = false)
    {p : Int × Int} (hp : p ∈ avoidList b.w b.h sx sy) (hpc : p ∈ coords b) :
    ((placeMinesAvoiding rand b sx sy).grid p).isMine = false := by
  rw [placeMines_isMine, hfresh p hpc, Bool.or_false]
  have : p ∉ minesList rand b sx sy := fun hmem =>
    (mem_poolList.mp (minesList_sub_pool hmem)).2 hp
  simpa using this

/-- One unrevealed cell is rewritten without touching its mine status, its
adjacency, or its revealed flag: the invariant survives, with the running
flag counter adjusted by the flag delta. -/
theorem inv_update_unrevealed {b : Board} (hinv : BoardInv b) {x y : Int} {c' : Cell}
    (hin : inB b.w b.h x y = true)
    (hunrev : (b.grid (x, y)).isRevealed = false)
    (hmine : c'.isMine = (b.grid (x, y)).isMine)
    (hrev : c'.isRevealed = false)
    (hadjc : c'.adj = (b.grid (x, y)).adj)
    {f : Int}
    (hf : f = b.flaggedCount + (if c'.isFlagged = true then (1 : Int) else 0)
      - (if (b.grid (x, y)).isFlagged = true then (1 : Int) else 0)) :
    BoardInv { b with grid := setCell b.grid (x, y) c', flaggedCount := f } := by
  obtain ⟨⟨hrc, hfcnt⟩, hadj, hfr, hph1, hph2, hph3⟩ := hinv
  set b' : Board := { b with grid := setCell b.grid (x, y) c', flaggedCount := f } with hb'
  have hpc : (x, y) ∈ coords b := mem_coordList.mpr hin
  have hminepw : ∀ q : Int × Int, (b'.grid q).isMine = (b.grid q).isMine := by
    intro q
    by_cases hq : q = (x, y)
    · subst hq; rw [hb']; show (setCell b.grid (x,y) c' (x,y)).isMine = _
      rw [setCell_same, hmine]
    · show (setCell b.grid (x,y) c' q).isMine = _
      rw [setCell_other _ _ _ _ hq]
  have hadjpw : ∀ q : Int × Int, (b'.grid q).adj = (b.grid q).adj := by
    intro q
    by_cases hq : q = (x, y)
    · subst hq; show (setCell b.grid (x,y) c' (x,y)).adj = _
      rw [setCell_same, hadjc]
    · show (setCell b.grid (x,y) c' q).adj = _
      rw [setCell_other _ _ _ _ hq]
  have hrevpw : ∀ q : Int × Int, q ≠ (x, y) → (b'.grid q).isRevealed = (b.grid q).isRevealed := by
    intro q hq
    show (setCell b.grid (x,y) c' q).isRevealed = _
    rw [setCell_other _ _ _ _ hq]
  have hrevxy : (b'.grid (x, y)).isRevealed = false := by
    show (setCell b.grid (x,y) c' (x,y)).isRevealed = false
    rw [setCell_same, hrev]
  have hrevall : ∀ q : Int × Int, (b'.grid q).isRevealed = true → (b.grid q).isRevealed = true := by
    intro q hq
    by_cases hqe : q = (x, y)
    · subst hqe; rw [hrevxy] at hq; exact absurd hq (by simp)
    · rw [← hrevpw q hqe]; exact hq
  refine ⟨⟨?_, ?_⟩, ?_, ?_, ?_, ?_, ?_⟩
  · -- revealedCount
    have hc := countP_setCell (coordList_nodup b.w b.h) hpc b.grid c'
      (fun c => c.isRevealed && !c.isMine)
    rw [hunrev, hrev] at hc
    simp only [Bool.false_and, if_neg (by simp : ¬(false = true))] at hc
    show b.revealedCount = _
    rw [hrc]
    unfold cntRevSafe at *
    have : (coords b').countP (fun p => (b'.grid p).isRevealed && !(b'.grid p).isMine)
        = (coords b).countP (fun q => ((setCell b.grid (x,y) c') q).isRevealed
            && !((setCell b.grid (x,y) c') q).isMine) := rfl
    rw [this]
    simp only [coords] at *
    omega
  · -- flaggedCount
    have hc := countP_setCell (coordList_nodup b.w b.h) hpc b.grid c'
      (fun c => c.isFlagged)
    show f = _
    have hcnt' : cntFlag b' = (coords b).countP
        (fun q => ((setCell b.grid (x,y) c') q).isFlagged) := rfl
    rw [hf, hfcnt, hcnt']
    unfold cntFlag at *
    simp only [coords] at *
    cases hofl : (b.grid (x, y)).isFlagged <;> cases hnfl : c'.isFlagged <;>
      simp only [hofl, hnfl] at hc ⊢ <;> simp at hc ⊢ <;> omega
  · -- AdjOK
    intro p hp
    have hp' : p ∈ coords b := hp
    have := hadj p hp'
    rw [hminepw p, hadjpw p]
    have hnc : mineNbrCount b'.w b'.h b'.grid p.1 p.2 = mineNbrCount b.w b.h b.grid p.1 p.2 := by
      exact mineNbrCount_congr (fun q _ => hminepw q)
    rw [hnc]
    exact this
  · -- FlagRevOK
    intro p hp hprev hpfl
    by_cases hq : p = (x, y)
    · subst hq; rw [hrevxy] at hprev; exact absurd hprev (by simp)
    · rw [hminepw p]
      have hfl' : (b.grid p).isFlagged = true := by
        have : (b'.grid p).isFlagged = (b.grid p).isFlagged := by
          show (setCell b.grid (x,y) c' p).isFlagged = _
          rw [setCell_other _ _ _ _ hq]
        rw [← this]; exact hpfl
      exact hfr p hp (by rw [← hrevpw p hq]; exact hprev) hfl'
  · -- PhaseOK 1
    intro hfc
    obtain ⟨h1, h2, h3⟩ := hph1 hfc
    refine ⟨h1, h2, ?_⟩
    intro p hp
    refine ⟨by rw [hminepw p]; exact (h3 p hp).1, ?_⟩
    by_cases hq : p = (x, y)
    · subst hq; exact hrevxy
    · rw [hrevpw p hq]; exact (h3 p hp).2
  · -- PhaseOK 2
    intro hfc
    obtain ⟨h1, h2⟩ := hph2 hfc
    refine ⟨h1, ?_⟩
    have : cntMine b' = cntMine b := countP_agree (fun q _ => hminepw q)
    rw [show b'.mineCount = b.mineCount from rfl, this]
    exact h2
  · -- PhaseOK 3
    intro hst p hp hprev
    rw [hminepw p]
    exact hph3 hst p hp (hrevall p hprev)

theorem inv_toggleFlag {b : Board} {x y : Int} {q : Bool} {b' : Board} {res : FlagRes}
    (hinv : BoardInv b) (h : toggleFlag b x y q = some (b', res)) : BoardInv b' := by
  simp only [toggleFlag] at h
  by_cases hy : 0 ≤ y ∧ y < (b.h : Int)
  case neg => rw [if_neg hy] at h; exact absurd h (by simp)
  rw [if_pos hy] at h
  by_cases h2 : b.state = GState.lost ∨ b.state = GState.won
  · rw [if_pos h2] at h
    simp only [Option.some.injEq, Prod.mk.injEq] at h
    rw [← h.1]; exact hinv
  rw [if_neg h2] at h
  by_cases hx : 0 ≤ x ∧ x < (b.w : Int)
  case neg => rw [if_neg hx] at h; exact absurd h (by simp)
  rw [if_pos hx] at h
  have h1 : inB b.w b.h x y = true := by
    rw [inB_iff]
    exact ⟨hx.1, hy.1, hx.2, hy.2⟩
  by_cases h3 : (b.grid (x, y)).isRevealed = true
  · rw [if_pos h3] at h
    simp only [Option.some.injEq, Prod.mk.injEq] at h
    rw [← h.1]; exact hinv
  rw [if_neg h3] at h
  have h3' : (b.grid (x, y)).isRevealed = false := by simpa using h3
  by_cases h4 : ¬(b.grid (x, y)).isFlagged = true ∧ ¬(b.grid (x, y)).isQuestion = true
  · rw [if_pos h4] at h
    simp only [Option.some.injEq, Prod.mk.injEq] at h
    obtain ⟨hb, -⟩ := h
    rw [← hb]
    refine @inv_update_unrevealed b hinv x y { b.grid (x, y) with isFlagged := true }
      h1 h3' rfl h3' rfl (b.flaggedCount + 1) ?_
    have hofl : (b.grid (x, y)).isFlagged = false := by simpa using h4.1
    simp [hofl]
  rw [if_neg h4] at h
  by_cases h5 : (b.grid (x, y)).isFlagged = true
  · rw [if_pos h5] at h
    by_cases h6 : q = true
    · rw [if_pos h6] at h
      simp only [Option.some.injEq, Prod.mk.injEq] at h
      obtain ⟨hb, -⟩ := h
      rw [← hb]
      refine @inv_update_unrevealed b hinv x y
        { b.grid (x, y) with isFlagged := false, isQuestion := true }
        h1 h3' rfl h3' rfl (b.flaggedCount - 1) ?_
      simp [h5]
    · rw [if_neg h6] at h
      simp only [Option.some.injEq, Prod.mk.injEq] at h
      obtain ⟨hb, -⟩ := h
      rw [← hb]
      refine @inv_update_unrevealed b hinv x y { b.grid (x, y) with isFlagged := false }
        h1 h3' rfl h3' rfl (b.flaggedCount - 1) ?_
      simp [h5]
  rw [if_neg h5] at h
  by_cases h6 : (b.grid (x, y)).isQuestion = true
  · rw [if_pos h6] at h
    simp only [Option.some.injEq, Prod.mk.injEq] at h
    obtain ⟨hb, -⟩ := h
    rw [← hb]
    have hres := @inv_update_unrevealed b hinv x y { b.grid (x, y) with isQuestion := false }
      h1 h3' rfl h3' rfl b.flaggedCount (by simp [h5])
    exact hres
  · rw [if_neg h6] at h
    simp only [Option.some.injEq, Prod.mk.injEq] at h
    rw [← h.1]; exact hinv

/-! ### The flood fill: master lemma -/

/-- `b'` is `b` with some cells revealed and nothing else changed. -/
def RevOnly (b b' : Board) : Prop :=
  b'.w = b.w ∧ b'.h = b.h ∧ b'.state = b.state ∧ b'.firstClick = b.firstClick
  ∧ b'.mineCount = b.mineCount ∧ b'.flaggedCount = b.flaggedCount
  ∧ (∀ p : Int × Int, (b'.grid p).isMine = (b.grid p).isMine
      ∧ (b'.grid p).isFlagged = (b.grid p).isFlagged
      ∧ (b'.grid p).isQuestion = (b.grid p).isQuestion
      ∧ (b'.grid p).adj = (b.grid p).adj)
  ∧ (∀ p : Int × Int, (b.grid p).isRevealed = true → (b'.grid p).isRevealed = true)

theorem revOnly_refl {b : Board} : RevOnly b b :=
  ⟨rfl, rfl, rfl, rfl, rfl, rfl, fun _ => ⟨rfl, rfl, rfl, rfl⟩, fun _ hp => hp⟩

theorem revOnly_trans {a b c : Board} (h1 : RevOnly a b) (h2 : RevOnly b c) : RevOnly a c := by
  obtain ⟨w1, h1', s1, f1, m1, g1, pw1, mono1⟩ := h1
  obtain ⟨w2, h2', s2, f2, m2, g2, pw2, mono2⟩ := h2
  refine ⟨w2.trans w1, h2'.trans h1', s2.trans s1, f2.trans f1, m2.trans m1, g2.trans g1,
    ?_, fun p hp => mono2 p (mono1 p hp)⟩
  intro p
  exact ⟨(pw2 p).1.trans (pw1 p).1, (pw2 p).2.1.trans (pw1 p).2.1,
    (pw2 p).2.2.1.trans (pw1 p).2.2.1, (pw2 p).2.2.2.trans (pw1 p).2.2.2⟩

/-- The board produced by one flood-fill reveal step. -/
def bfsStep (b : Board) (cx cy : Int) : Board :=
  { b with grid := setCell b.grid (cx, cy) { b.grid (cx, cy) with isRevealed := true },
           revealedCount := b.revealedCount + 1 }

theorem bfsStep_revOnly {b : Board} {cx cy : Int}
    (hunrev : (b.grid (cx, cy)).isRevealed = false) : RevOnly b (bfsStep b cx cy) := by
  refine ⟨rfl, rfl, rfl, rfl, rfl, rfl, ?_, ?_⟩
  · intro p
    by_cases hp : p = (cx, cy)
    · subst hp
      show _ ∧ _ ∧ _ ∧ _
      constructor
      · show (setCell b.grid (cx,cy) _ (cx,cy)).isMine = _
        rw [setCell_same]
      constructor
      · show (setCell b.grid (cx,cy) _ (cx,cy)).isFlagged = _
        rw [setCell_same]
      constructor
      · show (setCell b.grid (cx,cy) _ (cx,cy)).isQuestion = _
        rw [setCell_same]
      · show (setCell b.grid (cx,cy) _ (cx,cy)).adj = _
        rw [setCell_same]
    · have he : setCell b.grid (cx, cy) { b.grid (cx, cy) with isRevealed := true } p
          = b.grid p := setCell_other _ _ _ _ hp
      show (setCell b.grid (cx,cy) _ p).isMine = _ ∧ (setCell b.grid (cx,cy) _ p).isFlagged = _
        ∧ (setCell b.grid (cx,cy) _ p).isQuestion = _ ∧ (setCell b.grid (cx,cy) _ p).adj = _
      rw [he]
      exact ⟨rfl, rfl, rfl, rfl⟩
  · intro p hp
    by_cases hpe : p = (cx, cy)
    · subst hpe
      show (setCell b.grid (cx,cy) _ (cx,cy)).isRevealed = true
      rw [setCell_same]
    · show (setCell b.grid (cx,cy) _ p).isRevealed = true
      rw [setCell_other _ _ _ _ hpe]
      exact hp

theorem bfsStep_revealed_self (b : Board) (cx cy : Int) :
    ((bfsStep b cx cy).grid (cx, cy)).isRevealed = true := by
  show (setCell b.grid (cx,cy) _ (cx,cy)).isRevealed = true
  rw [setCell_same]

theorem bfsStep_revealed_iff (b : Board) (cx cy : Int) (p : Int × Int) :
    ((bfsStep b cx cy).grid p).isRevealed = true
      ↔ ((b.grid p).isRevealed = true ∨ p = (cx, cy)) := by
  by_cases hp : p = (cx, cy)
  · subst hp
    simp [bfsStep_revealed_self]
  · constructor
    · intro hr
      left
      show (b.grid p).isRevealed = true
      rw [show (b.grid p) = (bfsStep b cx cy).grid p from (setCell_other _ _ _ _ hp).symm]
      exact hr
    · rintro (hr | hr)
      · show (setCell b.grid (cx,cy) _ p).isRevealed = true
        rw [setCell_other _ _ _ _ hp]
        exact hr
      · exact absurd hr hp

theorem adjOK_of_revOnly {b b' : Board} (h : RevOnly b b') (hadj : AdjOK b) : AdjOK b' := by
  intro p hp
  obtain ⟨hw, hh, -, -, -, -, pw, -⟩ := h
  have hp' : p ∈ coords b := by
    have : coords b' = coords b := by unfold coords; rw [hw, hh]
    rw [← this]; exact hp
  have := hadj p hp'
  rw [(pw p).1, (pw p).2.2.2]
  have hnc : mineNbrCount b'.w b'.h b'.grid p.1 p.2 = mineNbrCount b.w b.h b.grid p.1 p.2 := by
    rw [hw, hh]
    exact mineNbrCount_congr (fun q _ => (pw q).1)
  rw [hnc]
  exact this

theorem countersOK_bfsStep {b : Board} {cx cy : Int}
    (hin : inB b.w b.h cx cy = true)
    (hunrev : (b.grid (cx, cy)).isRevealed = false)
    (hmine : (b.grid (cx, cy)).isMine = false)
    (hc : CountersOK b) : CountersOK (bfsStep b cx cy) := by
  obtain ⟨hrc, hfc⟩ := hc
  have hpc : (cx, cy) ∈ coordList b.w b.h := mem_coordList.mpr hin
  constructor
  · have hcnt := countP_setCell (coordList_nodup b.w b.h) hpc b.grid
      { b.grid (cx, cy) with isRevealed := true } (fun c => c.isRevealed && !c.isMine)
    rw [hunrev] at hcnt
    show b.revealedCount + 1 = _
    rw [hrc]
    have h1 : cntRevSafe (bfsStep b cx cy)
        = (coordList b.w b.h).countP
          (fun q => ((setCell b.grid (cx,cy) { b.grid (cx,cy) with isRevealed := true }) q).isRevealed
            && !((setCell b.grid (cx,cy) { b.grid (cx,cy) with isRevealed := true }) q).isMine) := rfl
    rw [h1]
    unfold cntRevSafe coords
    dsimp only at hcnt ⊢
    simp only [hmine] at hcnt ⊢
    simp at hcnt
    omega
  · have hcnt := countP_setCell (coordList_nodup b.w b.h) hpc b.grid
      { b.grid (cx, cy) with isRevealed := true } (fun c => c.isFlagged)
    show b.flaggedCount = _
    rw [hfc]
    have h1 : cntFlag (bfsStep b cx cy)
        = (coordList b.w b.h).countP
          (fun q => ((setCell b.grid (cx,cy) { b.grid (cx,cy) with isRevealed := true }) q).isFlagged) := rfl
    rw [h1]
    unfold cntFlag coords
    dsimp only at hcnt ⊢
    omega

theorem mineNbr_zero {w h : Nat} {g : Int × Int → Cell} {x y : Int}
    (hz : mineNbrCount w h g x y = 0) :
    ∀ p ∈ neighborsList w h x y, (g p).isMine = false := by
  intro p hp
  unfold mineNbrCount at hz
  have hlen : ((neighborsList w h x y).filter (fun p => (g p).isMine)).length = 0 := by
    omega
  rw [List.length_eq_zero] at hlen
  by_contra hmine
  have hmem : p ∈ (neighborsList w h x y).filter (fun p => (g p).isMine) :=
    List.mem_filter.mpr ⟨hp, by simpa using hmine⟩
  rw [hlen] at hmem
  simp at hmem

theorem bfs_master (w h : Nat) : ∀ (fuel : Nat) (b : Board) (q : List (Int × Int))
    (opened : List Delta),
    b.w = w → b.h = h →
    (∀ p ∈ q, inB w h p.1 p.2 = true ∧ (b.grid p).isMine = false) →
    AdjOK b →
    RevOnly b (bfs w h fuel b q opened).1
    ∧ (CountersOK b → CountersOK (bfs w h fuel b q opened).1)
    ∧ ∃ t, (bfs w h fuel b q opened).2 = opened ++ t
      ∧ (∀ d ∈ t, inB w h d.x d.y = true
          ∧ (b.grid (d.x, d.y)).isRevealed = false
          ∧ (b.grid (d.x, d.y)).isMine = false
          ∧ (b.grid (d.x, d.y)).isFlagged = false
          ∧ d.cell = { b.grid (d.x, d.y) with isRevealed := true }
          ∧ d.exploded = false ∧ d.misflag = false ∧ d.correctFlag = false
          ∧ ((bfs w h fuel b q opened).1.grid (d.x, d.y)).isRevealed = true)
      ∧ (t.map fun d => (d.x, d.y)).Nodup
      ∧ (bfs w h fuel b q opened).1.revealedCount = b.revealedCount + t.length
      ∧ (∀ p : Int × Int, ((bfs w h fuel b q opened).1.grid p).isRevealed = true →
          (b.grid p).isRevealed = true ∨ ∃ d ∈ t, (d.x, d.y) = p) := by
  intro fuel
  induction fuel with
  | zero =>
    intro b q opened hw hh hq hadj
    have hbfs : bfs w h 0 b q opened = (b, opened) := by
      cases q <;> rfl
    rw [hbfs]
    exact ⟨revOnly_refl, fun hc => hc, [], by simp, by simp, by simp, by simp,
      fun p hp => Or.inl hp⟩
  | succ fuel ih =>
    intro b q opened hw hh hq hadj
    match q with
    | [] =>
      have hbfs : bfs w h (fuel+1) b [] opened = (b, opened) := rfl
      rw [hbfs]
      exact ⟨revOnly_refl, fun hc => hc, [], by simp, by simp, by simp, by simp,
        fun p hp => Or.inl hp⟩
    | (cx, cy) :: q' =>
      subst hw
      subst hh
      obtain ⟨hin, hmine⟩ := hq (cx, cy) (List.mem_cons_self _ _)
      by_cases hskip : (b.grid (cx, cy)).isRevealed = true ∨ (b.grid (cx, cy)).isFlagged = true
      · have hbfs : bfs b.w b.h (fuel+1) b ((cx,cy)::q') opened = bfs b.w b.h fuel b q' opened := by
          show (if (b.grid (cx,cy)).isRevealed = true ∨ (b.grid (cx,cy)).isFlagged = true
            then bfs b.w b.h fuel b q' opened else _) = _
          rw [if_pos hskip]
        rw [hbfs]
        exact ih b q' opened rfl rfl (fun p hp => hq p (List.mem_cons_of_mem _ hp)) hadj
      · push_neg at hskip
        have hrev0 : (b.grid (cx, cy)).isRevealed = false := by
          simpa using hskip.1
        have hflag0 : (b.grid (cx, cy)).isFlagged = false := by
          simpa using hskip.2
        have hro1 : RevOnly b (bfsStep b cx cy) := bfsStep_revOnly hrev0
        have hadj1 : AdjOK (bfsStep b cx cy) := adjOK_of_revOnly hro1 hadj
        have hq1 : ∀ p ∈ q', inB b.w b.h p.1 p.2 = true
            ∧ ((bfsStep b cx cy).grid p).isMine = false := by
          intro p hp
          obtain ⟨h1, h2⟩ := hq p (List.mem_cons_of_mem _ hp)
          exact ⟨h1, by rw [(hro1.2.2.2.2.2.2.1 p).1]; exact h2⟩
        have hstep1 : (bfsStep b cx cy).w = b.w := rfl
        have hstep2 : (bfsStep b cx cy).h = b.h := rfl
        -- the two recursive shapes
        by_cases hz : (b.grid (cx, cy)).adj = 0
        · -- expand neighbors
          have hnbr : ∀ p ∈ neighborsList b.w b.h cx cy,
              ((bfsStep b cx cy).grid p).isMine = false := by
            have hcmem : (cx, cy) ∈ coords b := mem_coordList.mpr hin
            have hz' := hadj (cx, cy) hcmem
            rw [if_neg (by rw [hmine]; simp)] at hz'
            intro p hp
            rw [(hro1.2.2.2.2.2.2.1 p).1]
            exact mineNbr_zero (by rw [← hz']; exact hz) p hp
          have hqpush : ∀ p ∈ q' ++ (neighborsList b.w b.h cx cy).filter
              (fun p => ¬((bfsStep b cx cy).grid p).isRevealed
                ∧ ¬((bfsStep b cx cy).grid p).isFlagged),
              inB b.w b.h p.1 p.2 = true ∧ ((bfsStep b cx cy).grid p).isMine = false := by
            intro p hp
            rcases List.mem_append.mp hp with hp' | hp'
            · exact hq1 p hp'
            · have hpn := List.mem_filter.mp hp'
              exact ⟨mem_neighborsList_inB hpn.1, hnbr p hpn.1⟩
          have hbfs : bfs b.w b.h (fuel+1) b ((cx,cy)::q') opened
              = bfs b.w b.h fuel (bfsStep b cx cy)
                (q' ++ (neighborsList b.w b.h cx cy).filter
                  (fun p => ¬((bfsStep b cx cy).grid p).isRevealed
                    ∧ ¬((bfsStep b cx cy).grid p).isFlagged))
                (opened ++ [⟨cx, cy, { b.grid (cx, cy) with isRevealed := true },
                  false, false, false⟩]) := by
            show (if (b.grid (cx,cy)).isRevealed = true ∨ (b.grid (cx,cy)).isFlagged = true
              then _ else if (b.grid (cx,cy)).adj = 0 then _ else _) = _
            rw [if_neg (by push_neg; exact ⟨by simp [hrev0], by simp [hflag0]⟩), if_pos hz]
            rfl
          rw [hbfs]
          obtain ⟨ro2, cnt2, t', ht'eq, ht'facts, ht'nodup, ht'count, ht'sound⟩ :=
            ih (bfsStep b cx cy) _ _ rfl rfl hqpush hadj1
          have hne : ∀ d ∈ t', (d.x, d.y) ≠ (cx, cy) := by
            intro d hd heq
            have := (ht'facts d hd).2.1
            rw [heq] at this
            rw [bfsStep_revealed_self b cx cy] at this
            exact absurd this (by simp)
          have hother : ∀ d ∈ t', (bfsStep b cx cy).grid (d.x, d.y) = b.grid (d.x, d.y) := by
            intro d hd
            exact setCell_other _ _ _ _ (hne d hd)
          refine ⟨revOnly_trans hro1 ro2,
            fun hc => cnt2 (countersOK_bfsStep hin hrev0 hmine hc),
            ⟨cx, cy, { b.grid (cx, cy) with isRevealed := true }, false, false, false⟩ :: t',
            ?_, ?_, ?_, ?_, ?_⟩
          · rw [ht'eq]
            simp
          · intro d hd
            rcases List.mem_cons.mp hd with rfl | hd'
            · refine ⟨hin, hrev0, hmine, hflag0, rfl, rfl, rfl, rfl, ?_⟩
              exact ro2.2.2.2.2.2.2.2 _ (bfsStep_revealed_self b cx cy)
            · obtain ⟨f1, f2, f3, f4, f5, f6, f7, f8, f9⟩ := ht'facts d hd'
              rw [hother d hd'] at f2 f3 f4 f5
              exact ⟨f1, f2, f3, f4, f5, f6, f7, f8, f9⟩
          · rw [List.map_cons]
            refine List.nodup_cons.mpr ⟨?_, ht'nodup⟩
            intro hmem
            rw [List.mem_map] at hmem
            obtain ⟨d, hd, hdeq⟩ := hmem
            exact hne d hd hdeq
          · rw [ht'count]
            show _ = b.revealedCount + (t'.length + 1 : Nat)
            have : (bfsStep b cx cy).revealedCount = b.revealedCount + 1 := rfl
            rw [this]
            push_cast
            ring
          · intro p hp
            rcases ht'sound p hp with hp' | hp'
            · rcases (bfsStep_revealed_iff b cx cy p).mp hp' with hp'' | hp''
              · exact Or.inl hp''
              · exact Or.inr ⟨_, List.mem_cons_self _ _, by rw [hp'']⟩
            · obtain ⟨d, hd, hdeq⟩ := hp'
              exact Or.inr ⟨d, List.mem_cons_of_mem _ hd, hdeq⟩
        · -- no expansion
          have hbfs : bfs b.w b.h (fuel+1) b ((cx,cy)::q') opened
              = bfs b.w b.h fuel (bfsStep b cx cy) q'
                (opened ++ [⟨cx, cy, { b.grid (cx, cy) with isRevealed := true },
                  false, false, false⟩]) := by
            show (if (b.grid (cx,cy)).isRevealed = true ∨ (b.grid (cx,cy)).isFlagged = true
              then _ else if (b.grid (cx,cy)).adj = 0 then _ else _) = _
            rw [if_neg (by push_neg; exact ⟨by simp [hrev0], by simp [hflag0]⟩), if_neg hz]
            rfl
          rw [hbfs]
          obtain ⟨ro2, cnt2, t', ht'eq, ht'facts, ht'nodup, ht'count, ht'sound⟩ :=
            ih (bfsStep b cx cy) _ _ rfl rfl hq1 hadj1
          have hne : ∀ d ∈ t', (d.x, d.y) ≠ (cx, cy) := by
            intro d hd heq
            have := (ht'facts d hd).2.1
            rw [heq] at this
            rw [bfsStep_revealed_self b cx cy] at this
            exact absurd this (by simp)
          have hother : ∀ d ∈ t', (bfsStep b cx cy).grid (d.x, d.y) = b.grid (d.x, d.y) := by
            intro d hd
            exact setCell_other _ _ _ _ (hne d hd)
          refine ⟨revOnly_trans hro1 ro2,
            fun hc => cnt2 (countersOK_bfsStep hin hrev0 hmine hc),
            ⟨cx, cy, { b.grid (cx, cy) with isRevealed := true }, false, false, false⟩ :: t',
            ?_, ?_, ?_, ?_, ?_⟩
          · rw [ht'eq]
            simp
          · intro d hd
            rcases List.mem_cons.mp hd with rfl | hd'
            · refine ⟨hin, hrev0, hmine, hflag0, rfl, rfl, rfl, rfl, ?_⟩
              exact ro2.2.2.2.2.2.2.2 _ (bfsStep_revealed_self b cx cy)
            · obtain ⟨f1, f2, f3, f4, f5, f6, f7, f8, f9⟩ := ht'facts d hd'
              rw [hother d hd'] at f2 f3 f4 f5
              exact ⟨f1, f2, f3, f4, f5, f6, f7, f8, f9⟩
          · rw [List.map_cons]
            refine List.nodup_cons.mpr ⟨?_, ht'nodup⟩
            intro hmem
            rw [List.mem_map] at hmem
            obtain ⟨d, hd, hdeq⟩ := hmem
            exact hne d hd hdeq
          · rw [ht'count]
            show _ = b.revealedCount + (t'.length + 1 : Nat)
            have : (bfsStep b cx cy).revealedCount = b.revealedCount + 1 := rfl
            rw [this]
            push_cast
            ring
          · intro p hp
            rcases ht'sound p hp with hp' | hp'
            · rcases (bfsStep_revealed_iff b cx cy p).mp hp' with hp'' | hp''
              · exact Or.inl hp''
              · exact Or.inr ⟨_, List.mem_cons_self _ _, by rw [hp'']⟩
            · obtain ⟨d, hd, hdeq⟩ := hp'
              exact Or.inr ⟨d, List.mem_cons_of_mem _ hd, hdeq⟩

/-! ### The loss sweep -/

theorem sweepStep_fst (g : Int × Int → Cell) (acc : List Delta) (a : Int × Int) :
    (sweepStep (g, acc) a).1
      = if (g a).isMine = true ∧ (g a).isRevealed = false
        then setCell g a { g a with isRevealed := true } else g := by
  unfold sweepStep
  dsimp only
  by_cases h1 : (g a).isMine = true ∧ ¬((g a).isRevealed = true)
  · rw [if_pos h1]
    simp only [setCell_same]
    rw [if_neg (fun hcon => hcon.2 h1.1)]
    rw [if_pos ⟨h1.1, by simpa using h1.2⟩]
  · rw [if_neg h1]
    dsimp only
    have hneg : ¬((g a).isMine = true ∧ (g a).isRevealed = false) := by
      intro hcon
      exact h1 ⟨hcon.1, by simp [hcon.2]⟩
    rw [if_neg hneg]
    by_cases h2 : (g a).isFlagged = true ∧ ¬((g a).isMine = true)
    · rw [if_pos h2]
    · rw [if_neg h2]

theorem sweepFold_fst : ∀ (l : List (Int × Int)), l.Nodup →
    ∀ (g : Int × Int → Cell) (acc : List Delta) (p : Int × Int),
    ((l.foldl sweepStep (g, acc)).1) p
      = if p ∈ l ∧ (g p).isMine = true ∧ (g p).isRevealed = false
        then { g p with isRevealed := true } else g p := by
  intro l
  induction l with
  | nil =>
    intro _ g acc p
    simp
  | cons a rest ih =>
    intro hnd g acc p
    obtain ⟨hna, hnd'⟩ := List.nodup_cons.mp hnd
    rw [List.foldl_cons]
    have hstep : sweepStep (g, acc) a
        = ((sweepStep (g, acc) a).1, (sweepStep (g, acc) a).2) := rfl
    rw [hstep, ih hnd' _ _ p, sweepStep_fst]
    by_cases hm : (g a).isMine = true ∧ (g a).isRevealed = false
    · rw [if_pos hm]
      by_cases hpa : p = a
      · subst hpa
        rw [if_neg (by intro hcon; exact hna hcon.1)]
        rw [setCell_same]
        simp [List.mem_cons, hm]
      · rw [setCell_other _ _ _ _ hpa]
        by_cases hpl : p ∈ rest ∧ (g p).isMine = true ∧ (g p).isRevealed = false
        · rw [if_pos hpl, if_pos ⟨List.mem_cons_of_mem _ hpl.1, hpl.2⟩]
        · rw [if_neg hpl]
          by_cases hl2 : p ∈ a :: rest ∧ (g p).isMine = true ∧ (g p).isRevealed = false
          · exfalso
            rcases List.mem_cons.mp hl2.1 with rfl | hmem
            · exact hpa rfl
            · exact hpl ⟨hmem, hl2.2⟩
          · rw [if_neg hl2]
    · rw [if_neg hm]
      by_cases hpl : p ∈ rest ∧ (g p).isMine = true ∧ (g p).isRevealed = false
      · rw [if_pos hpl, if_pos ⟨List.mem_cons_of_mem _ hpl.1, hpl.2⟩]
      · rw [if_neg hpl]
        by_cases hl2 : p ∈ a :: rest ∧ (g p).isMine = true ∧ (g p).isRevealed = false
        · exfalso
          rcases List.mem_cons.mp hl2.1 with rfl | hmem
          · exact hm hl2.2
          · exact hpl ⟨hmem, hl2.2⟩
        · rw [if_neg hl2]

theorem lossSweep_fst (w h : Nat) (g0 : Int × Int → Cell) (acc0 : List Delta) (p : Int × Int) :
    (lossSweep w h g0 acc0).1 p
      = if p ∈ coordList w h ∧ (g0 p).isMine = true ∧ (g0 p).isRevealed = false
        then { g0 p with isRevealed := true } else g0 p :=
  sweepFold_fst (coordList w h) (coordList_nodup w h) g0 acc0 p

/-! ### Counting comparisons for the win condition -/

theorem countP_strict_lt {α : Type} {l : List α} {f g : α → Bool}
    (hmono : ∀ a ∈ l, f a = true → g a = true)
    {a : α} (ha : a ∈ l) (hga : g a = true) (hfa : f a = false) :
    l.countP f < l.countP g := by
  obtain ⟨s, t, rfl⟩ := List.append_of_mem ha
  rw [List.countP_append, List.countP_append, List.countP_cons, List.countP_cons]
  rw [hfa, hga]
  have h1 : s.countP f ≤ s.countP g :=
    List.countP_mono_left (fun x hx => hmono x (List.mem_append.mpr (Or.inl hx)))
  have h2 : t.countP f ≤ t.countP g :=
    List.countP_mono_left (fun x hx =>
      hmono x (List.mem_append.mpr (Or.inr (List.mem_cons_of_mem _ hx))))
  simp
  omega

theorem countP_eq_pointwise {α : Type} : ∀ {l : List α} {f g : α → Bool},
    (∀ a ∈ l, f a = true → g a = true) → l.countP f = l.countP g →
    ∀ a ∈ l, g a = true → f a = true := by
  intro l
  induction l with
  | nil => intro f g _ _ a ha; simp at ha
  | cons x t ih =>
    intro f g hmono hcnt a ha hga
    have hmono' : ∀ b ∈ t, f b = true → g b = true :=
      fun b hb => hmono b (List.mem_cons_of_mem _ hb)
    rw [List.countP_cons, List.countP_cons] at hcnt
    by_cases hfx : f x = true
    · have hgx : g x = true := hmono x (List.mem_cons_self _ _) hfx
      rw [hfx, hgx] at hcnt
      simp at hcnt
      rcases List.mem_cons.mp ha with rfl | ha'
      · exact hfx
      · exact ih hmono' hcnt a ha' hga
    · rcases List.mem_cons.mp ha with rfl | ha'
      · exfalso
        have h1 : t.countP f ≤ t.countP g := List.countP_mono_left hmono'
        rw [eq_false_of_ne_true hfx, hga] at hcnt
        simp at hcnt
        omega
      · by_cases hgx : g x = true
        · exfalso
          have h1 : t.countP f ≤ t.countP g := List.countP_mono_left hmono'
          rw [eq_false_of_ne_true hfx, hgx] at hcnt
          simp at hcnt
          omega
        · rw [eq_false_of_ne_true hfx, eq_false_of_ne_true hgx] at hcnt
          simp at hcnt
          exact ih hmono' hcnt a ha' hga

/-- Number of safe (non-mine) cells: the complement count. -/
theorem cntSafe_add_cntMine (b : Board) :
    (coords b).countP (fun p => !(b.grid p).isMine) + cntMine b = b.w * b.h := by
  have h1 := List.length_eq_countP_add_countP (fun p => (b.grid p).isMine) (coords b)
  have h2 : (coords b).countP (fun a => decide (¬(b.grid a).isMine = true))
      = (coords b).countP (fun p => !(b.grid p).isMine) :=
    countP_agree (fun a _ => by by_cases hm : (b.grid a).isMine = true <;> simp [hm])
  have h3 : (coords b).length = b.w * b.h := coordList_length b.w b.h
  unfold cntMine
  omega

theorem correctFlagSweep_marks (w h : Nat) (g : Int × Int → Cell) :
    ∀ d ∈ correctFlagSweep w h g, d.correctFlag = true := by
  intro d hd
  unfold correctFlagSweep at hd
  rw [List.mem_map] at hd
  obtain ⟨p, -, rfl⟩ := hd
  rfl

theorem adjOK_congr {b b' : Board} (hw : b'.w = b.w) (hh : b'.h = b.h)
    (hmine : ∀ p : Int × Int, (b'.grid p).isMine = (b.grid p).isMine)
    (hadjf : ∀ p : Int × Int, (b'.grid p).adj = (b.grid p).adj)
    (hadj : AdjOK b) : AdjOK b' := by
  intro p hp
  have hp' : p ∈ coords b := by
    have : coords b' = coords b := by unfold coords; rw [hw, hh]
    rw [← this]; exact hp
  have := hadj p hp'
  rw [hmine p, hadjf p]
  have hnc : mineNbrCount b'.w b'.h b'.grid p.1 p.2 = mineNbrCount b.w b.h b.grid p.1 p.2 := by
    rw [hw, hh]
    exact mineNbrCount_congr (fun q _ => hmine q)
  rw [hnc]
  exact this

theorem checkWin_iff {b : Board} (hinv : BoardInv b) (hfc : b.firstClick = false) :
    checkWin b = true ↔ (b.state ≠ GState.lost ∧ ∀ p ∈ coords b,
      (b.grid p).isMine = false → (b.grid p).isRevealed = true) := by
  obtain ⟨⟨hrc, hfcnt⟩, hadj, hfr, hph1, hph2, hph3⟩ := hinv
  obtain ⟨hst, hmc⟩ := hph2 hfc
  have hcompl := cntSafe_add_cntMine b
  have hmono : ∀ p ∈ coords b,
      ((b.grid p).isRevealed && !(b.grid p).isMine) = true → (!(b.grid p).isMine) = true := by
    intro p _ hp
    rw [Bool.and_eq_true] at hp
    exact hp.2
  unfold checkWin
  rw [Bool.and_eq_true, decide_eq_true_eq, decide_eq_true_eq]
  constructor
  · intro ⟨heq, hnl⟩
    refine ⟨hnl, ?_⟩
    have heq' : cntRevSafe b = (coords b).countP (fun p => !(b.grid p).isMine) := by
      rw [hrc, hmc] at heq
      omega
    intro p hp hpm
    have := countP_eq_pointwise hmono heq' p hp (by simp [hpm])
    rw [Bool.and_eq_true] at this
    exact this.1
  · intro ⟨hnl, hall⟩
    refine ⟨?_, hnl⟩
    have heq' : cntRevSafe b = (coords b).countP (fun p => !(b.grid p).isMine) := by
      unfold cntRevSafe
      apply countP_agree
      intro p hp
      by_cases hm : (b.grid p).isMine = true
      · simp [hm]
      · have hm' : (b.grid p).isMine = false := eq_false_of_ne_true hm
        rw [hall p hp hm', hm']
        simp
    rw [hrc, hmc, heq']
    omega

theorem checkWin_false_of_unrevealed_safe {b : Board} (hinv : BoardInv b)
    (hfc : b.firstClick = false) {f : Int × Int} (hf : f ∈ coords b)
    (hfm : (b.grid f).isMine = false) (hfr : (b.grid f).isRevealed = false) :
    checkWin b = false := by
  cases hcw : checkWin b
  · rfl
  · exfalso
    have := ((checkWin_iff hinv hfc).mp hcw).2 f hf hfm
    rw [hfr] at this
    exact absurd this (by simp)

/-- The board produced by the mine-hit branch of `reveal` (no placement):
clicked cell revealed, then the loss sweep, then `state = 'lost'`. -/
def lossBoard (b : Board) (x y : Int) : Board :=
  { b with
    grid := (lossSweep b.w b.h
      (setCell b.grid (x, y) { b.grid (x, y) with isRevealed := true })
      [⟨x, y, { b.grid (x, y) with isRevealed := true }, true, false, false⟩]).1,
    state := GState.lost }

/-! ### Full characterization of `reveal` after mine placement -/

theorem reveal_full {rand : Nat → Nat} {b b' : Board} {res : RevealRes} {x y : Int}
    (hinv : BoardInv b) (hfc : b.firstClick = false)
    (hrv : reveal rand b x y = some (b', res)) :
    BoardInv b'
    ∧ b'.w = b.w ∧ b'.h = b.h ∧ b'.mineCount = b.mineCount ∧ b'.firstClick = false
    ∧ b'.flaggedCount = b.flaggedCount
    ∧ (∀ p : Int × Int, (b'.grid p).isMine = (b.grid p).isMine)
    ∧ (∀ p : Int × Int, (b'.grid p).isFlagged = (b.grid p).isFlagged)
    ∧ (∀ p : Int × Int, (b.grid p).isRevealed = true → (b'.grid p).isRevealed = true)
    ∧ (∀ p : Int × Int, (b'.grid p).isRevealed = true → (b.grid p).isRevealed = true
        ∨ (b.grid p).isMine = true ∨ (b.grid p).isFlagged = false)
    ∧ (res.exploded = true → b'.state = GState.lost
        ∧ (∀ p ∈ coords b, (b.grid p).isMine = true → (b'.grid p).isRevealed = true)
        ∧ (b.grid (x, y)).isMine = true)
    ∧ (res.exploded = false → b'.state = b.state
        ∨ (b'.state = GState.won ∧ checkWin b' = true))
    ∧ (b.state = GState.playing → res.exploded = false →
        (∃ f ∈ coords b, (b.grid f).isFlagged = true ∧ (b.grid f).isMine = false) →
        b'.state = GState.playing)
    ∧ (b.state = GState.playing → inB b.w b.h x y = true →
        (b.grid (x, y)).isFlagged = false → (b.grid (x, y)).isRevealed = false →
        (b.grid (x, y)).isMine = true → res.exploded = true)
    ∧ (res.exploded = false → ∀ p : Int × Int, (b'.grid p).isRevealed = true →
        (b.grid p).isRevealed = true
        ∨ ((b.grid p).isMine = false ∧ (b.grid p).isFlagged = false)) := by
  have hinv0 := hinv
  obtain ⟨⟨hrc, hfcnt⟩, hadj, hfr, hph1, hph2, hph3⟩ := hinv0
  simp only [reveal] at hrv
  by_cases h1 : b.state = GState.lost ∨ b.state = GState.won
  · rw [if_pos h1] at hrv
    simp only [Option.some.injEq, Prod.mk.injEq] at hrv
    obtain ⟨hb, hres⟩ := hrv
    subst hb
    subst hres
    refine ⟨hinv, rfl, rfl, rfl, hfc, rfl, fun _ => rfl, fun _ => rfl,
      fun _ hp => hp, fun p hp => Or.inl hp, ?_, fun _ => Or.inl rfl, ?_, ?_,
      fun _ p hp => Or.inl hp⟩
    · intro hex
      exact absurd hex (by simp)
    · intro hst _ _
      rw [hst]
    · intro hst _ _ _ _
      exfalso
      rcases h1 with h1 | h1 <;> rw [hst] at h1 <;> exact absurd h1 (by simp)
  rw [if_neg h1] at hrv
  by_cases h2 : inB b.w b.h x y = true
  case neg =>
    rw [if_neg (by simpa using h2)] at hrv
    exact absurd hrv (by simp)
  rw [if_pos h2] at hrv
  by_cases h3 : (b.grid (x, y)).isFlagged = true ∨ (b.grid (x, y)).isRevealed = true
  · rw [if_pos h3] at hrv
    simp only [Option.some.injEq, Prod.mk.injEq] at hrv
    obtain ⟨hb, hres⟩ := hrv
    subst hb
    subst hres
    refine ⟨hinv, rfl, rfl, rfl, hfc, rfl, fun _ => rfl, fun _ => rfl,
      fun _ hp => hp, fun p hp => Or.inl hp, ?_, fun _ => Or.inl rfl, ?_, ?_,
      fun _ p hp => Or.inl hp⟩
    · intro hex
      exact absurd hex (by simp)
    · intro hst _ _
      rw [hst]
    · intro _ _ hfl hrv0 _
      exfalso
      rcases h3 with h3 | h3
      · rw [hfl] at h3; exact absurd h3 (by simp)
      · rw [hrv0] at h3; exact absurd h3 (by simp)
  rw [if_neg h3] at hrv
  have hb1 : (if b.firstClick = true then placeMinesAvoiding rand b x y else b) = b := by
    rw [hfc]
    simp
  rw [hb1] at hrv
  push_neg at h3
  have hflag0 : (b.grid (x, y)).isFlagged = false := by simpa using h3.1
  have hrev0 : (b.grid (x, y)).isRevealed = false := by simpa using h3.2
  have hnl : b.state ≠ GState.lost := fun hcon => h1 (Or.inl hcon)
  by_cases h4 : (b.grid (x, y)).isMine = true
  · -- mine branch
    rw [if_pos h4] at hrv
    simp only [Option.some.injEq, Prod.mk.injEq] at hrv
    obtain ⟨hb, hres⟩ := hrv
    subst hres
    have hbb : b' = lossBoard b x y := by rw [← hb]; rfl
    subst hbb
    -- characterize the final grid
    have hgf : ∀ p : Int × Int, (lossBoard b x y).grid p
        = if p ∈ coordList b.w b.h
            ∧ ((setCell b.grid (x, y) { b.grid (x, y) with isRevealed := true }) p).isMine = true
            ∧ ((setCell b.grid (x, y) { b.grid (x, y) with isRevealed := true }) p).isRevealed = false
          then { (setCell b.grid (x, y) { b.grid (x, y) with isRevealed := true }) p
                  with isRevealed := true }
          else (setCell b.grid (x, y) { b.grid (x, y) with isRevealed := true }) p := by
      intro p
      exact lossSweep_fst b.w b.h _ _ p
    have hmid : ∀ p : Int × Int,
        (setCell b.grid (x, y) { b.grid (x, y) with isRevealed := true }) p
        = if p = (x, y) then { b.grid (x, y) with isRevealed := true } else b.grid p := by
      intro p
      by_cases hp : p = (x, y)
      · subst hp; rw [setCell_same, if_pos rfl]
      · rw [setCell_other _ _ _ _ hp, if_neg hp]
    have hfield1 : ∀ p : Int × Int,
        ((lossBoard b x y).grid p).isMine
            = ((setCell b.grid (x, y) { b.grid (x, y) with isRevealed := true }) p).isMine
        ∧ ((lossBoard b x y).grid p).isFlagged
            = ((setCell b.grid (x, y) { b.grid (x, y) with isRevealed := true }) p).isFlagged
        ∧ ((lossBoard b x y).grid p).isQuestion
            = ((setCell b.grid (x, y) { b.grid (x, y) with isRevealed := true }) p).isQuestion
        ∧ ((lossBoard b x y).grid p).adj
            = ((setCell b.grid (x, y) { b.grid (x, y) with isRevealed := true }) p).adj
        ∧ (((setCell b.grid (x, y) { b.grid (x, y) with isRevealed := true }) p).isRevealed = true
            → ((lossBoard b x y).grid p).isRevealed = true) := by
      intro p
      rw [hgf p]
      by_cases hc : p ∈ coordList b.w b.h
          ∧ ((setCell b.grid (x, y) { b.grid (x, y) with isRevealed := true }) p).isMine = true
          ∧ ((setCell b.grid (x, y) { b.grid (x, y) with isRevealed := true }) p).isRevealed = false
      · rw [if_pos hc]
        exact ⟨rfl, rfl, rfl, rfl, fun _ => rfl⟩
      · rw [if_neg hc]
        exact ⟨rfl, rfl, rfl, rfl, fun hh => hh⟩
    have hfield2 : ∀ p : Int × Int,
        ((setCell b.grid (x, y) { b.grid (x, y) with isRevealed := true }) p).isMine
            = (b.grid p).isMine
        ∧ ((setCell b.grid (x, y) { b.grid (x, y) with isRevealed := true }) p).isFlagged
            = (b.grid p).isFlagged
        ∧ ((setCell b.grid (x, y) { b.grid (x, y) with isRevealed := true }) p).isQuestion
            = (b.grid p).isQuestion
        ∧ ((setCell b.grid (x, y) { b.grid (x, y) with isRevealed := true }) p).adj
            = (b.grid p).adj
        ∧ ((b.grid p).isRevealed = true →
            ((setCell b.grid (x, y) { b.grid (x, y) with isRevealed := true }) p).isRevealed
              = true) := by
      intro p
      rw [hmid p]
      by_cases hp : p = (x, y)
      · rw [if_pos hp, hp]
        exact ⟨rfl, rfl, rfl, rfl, fun _ => rfl⟩
      · rw [if_neg hp]
        exact ⟨rfl, rfl, rfl, rfl, fun hh => hh⟩
    have hm : ∀ p : Int × Int, ((lossBoard b x y).grid p).isMine = (b.grid p).isMine :=
      fun p => ((hfield1 p).1).trans (hfield2 p).1
    have hf : ∀ p : Int × Int, ((lossBoard b x y).grid p).isFlagged = (b.grid p).isFlagged :=
      fun p => ((hfield1 p).2.1).trans (hfield2 p).2.1
    have ha : ∀ p : Int × Int, ((lossBoard b x y).grid p).adj = (b.grid p).adj :=
      fun p => ((hfield1 p).2.2.2.1).trans (hfield2 p).2.2.2.1
    have hmono : ∀ p : Int × Int, (b.grid p).isRevealed = true →
        ((lossBoard b x y).grid p).isRevealed = true :=
      fun p hp => (hfield1 p).2.2.2.2 ((hfield2 p).2.2.2.2 hp)
    have hsound : ∀ p : Int × Int, ((lossBoard b x y).grid p).isRevealed = true →
        (b.grid p).isRevealed = true ∨ (b.grid p).isMine = true := by
      intro p hp
      rw [hgf p] at hp
      by_cases hc : p ∈ coordList b.w b.h
          ∧ ((setCell b.grid (x, y) { b.grid (x, y) with isRevealed := true }) p).isMine = true
          ∧ ((setCell b.grid (x, y) { b.grid (x, y) with isRevealed := true }) p).isRevealed = false
      · right
        have hmm := hc.2.1
        rw [(hfield2 p).1] at hmm
        exact hmm
      · rw [if_neg hc, hmid p] at hp
        by_cases hpe : p = (x, y)
        · right; rw [hpe]; exact h4
        · rw [if_neg hpe] at hp
          left; exact hp
    have hallm : ∀ p ∈ coordList b.w b.h, (b.grid p).isMine = true →
        ((lossBoard b x y).grid p).isRevealed = true := by
      intro p hpc hpm
      rw [hgf p]
      by_cases hc : p ∈ coordList b.w b.h
          ∧ ((setCell b.grid (x, y) { b.grid (x, y) with isRevealed := true }) p).isMine = true
          ∧ ((setCell b.grid (x, y) { b.grid (x, y) with isRevealed := true }) p).isRevealed = false
      · rw [if_pos hc]
      · rw [if_neg hc, hmid p]
        by_cases hpe : p = (x, y)
        · rw [if_pos hpe]
        · rw [if_neg hpe]
          push_neg at hc
          have hmm : ((setCell b.grid (x, y) { b.grid (x, y) with isRevealed := true }) p).isMine
              = true := by rw [(hfield2 p).1]; exact hpm
          have hcc := hc hpc hmm
          rw [hmid p, if_neg hpe] at hcc
          simpa using hcc
    have hcnt1 : cntRevSafe (lossBoard b x y) = cntRevSafe b := by
      unfold cntRevSafe
      apply countP_agree
      intro p hp
      rw [hm p]
      by_cases hpm : (b.grid p).isMine = true
      · simp [hpm]
      · have hpm' : (b.grid p).isMine = false := eq_false_of_ne_true hpm
        have hre : ((lossBoard b x y).grid p).isRevealed = (b.grid p).isRevealed := by
          cases hbr : (b.grid p).isRevealed
          · cases hgr : ((lossBoard b x y).grid p).isRevealed
            · rfl
            · rcases hsound p hgr with hcon | hcon
              · rw [hbr] at hcon; exact absurd hcon (by simp)
              · rw [hpm'] at hcon; exact absurd hcon (by simp)
          · exact hmono p hbr
        rw [hre]
    have hcnt2 : cntFlag (lossBoard b x y) = cntFlag b := by
      unfold cntFlag
      exact countP_agree (fun p _ => hf p)
    have hcnt3 : cntMine (lossBoard b x y) = cntMine b := by
      unfold cntMine
      exact countP_agree (fun p _ => hm p)
    refine ⟨⟨⟨?_, ?_⟩, ?_, ?_, ?_, ?_, ?_⟩,
      rfl, rfl, rfl, hfc, rfl, hm, hf, hmono, ?_, ?_, ?_, ?_, ?_, ?_⟩
    · show b.revealedCount = (cntRevSafe (lossBoard b x y) : Int)
      rw [hrc, hcnt1]
    · show b.flaggedCount = (cntFlag (lossBoard b x y) : Int)
      rw [hfcnt, hcnt2]
    · -- AdjOK
      exact @adjOK_congr b (lossBoard b x y) rfl rfl hm ha hadj
    · -- FlagRevOK
      intro p hp hprev hpfl
      rw [hm p]
      rcases hsound p hprev with hrb | hmb
      · exact hfr p hp hrb (by rw [← hf p]; exact hpfl)
      · exact hmb
    · -- PhaseOK 1
      intro hcon
      have : b.firstClick = true := hcon
      rw [hfc] at this
      exact absurd this (by simp)
    · -- PhaseOK 2
      intro _
      obtain ⟨hst, hmc⟩ := hph2 hfc
      refine ⟨by simp [lossBoard], ?_⟩
      show b.mineCount = (cntMine (lossBoard b x y) : Int)
      rw [hmc, hcnt3]
    · -- PhaseOK 3
      intro hcon
      exact absurd rfl hcon
    · -- reveal soundness triple-or
      intro p hp
      rcases hsound p hp with hh | hh
      · exact Or.inl hh
      · exact Or.inr (Or.inl hh)
    · -- exploded = true clause
      intro _
      exact ⟨rfl, fun p hp hpm => hallm p hp hpm, h4⟩
    · -- exploded = false clause
      intro hcon
      exact absurd hcon (by simp)
    · -- keeps playing clause
      intro _ hcon _
      exact absurd hcon (by simp)
    · -- mine target explodes
      intro _ _ _ _ _
      rfl
    · -- safe reveals only safe cells (vacuous: exploded)
      intro hcon
      exact absurd hcon (by simp)
  · -- flood branch
    rw [if_neg h4] at hrv
    have h4' : (b.grid (x, y)).isMine = false := eq_false_of_ne_true h4
    have hmaster := bfs_master b.w b.h (9 * (b.w * b.h) + 1) b [(x, y)] [] rfl rfl
      (by
        intro p hp
        rcases List.mem_cons.mp hp with rfl | hp'
        · exact ⟨h2, h4'⟩
        · simp at hp')
      hadj
    set F := bfs b.w b.h (9 * (b.w * b.h) + 1) b [(x, y)] [] with hF
    obtain ⟨hro, hcnt, t, hteq, htfacts, htnodup, htcount, htsound⟩ := hmaster
    obtain ⟨row, roh, rost, rofc, romc, rofl, ropw, romono⟩ := hro
    have hinvF : BoardInv F.1 := by
      refine ⟨hcnt ⟨hrc, hfcnt⟩, adjOK_of_revOnly
        ⟨row, roh, rost, rofc, romc, rofl, ropw, romono⟩ hadj, ?_, ?_, ?_, ?_⟩
      · -- FlagRevOK
        intro p hp hprev hpfl
        have hp' : p ∈ coords b := by
          have : coords F.1 = coords b := by unfold coords; rw [row, roh]
          rw [← this]; exact hp
        rcases htsound p hprev with hrb | ⟨d, hd, hdp⟩
        · rw [(ropw p).1]
          exact hfr p hp' hrb (by rw [← (ropw p).2.1]; exact hpfl)
        · exfalso
          have := (htfacts d hd).2.2.2.1
          rw [hdp] at this
          rw [(ropw p).2.1, this] at hpfl
          exact absurd hpfl (by simp)
      · -- PhaseOK 1
        intro hcon
        rw [rofc, hfc] at hcon
        exact absurd hcon (by simp)
      · -- PhaseOK 2
        intro _
        obtain ⟨hst, hmc⟩ := hph2 hfc
        refine ⟨by rw [rost]; exact hst, ?_⟩
        rw [romc, hmc]
        have : cntMine F.1 = cntMine b := by
          unfold cntMine coords
          rw [row, roh]
          exact countP_agree (fun p _ => (ropw p).1)
        rw [this]
      · -- PhaseOK 3
        intro hstF p hp hprev
        have hp' : p ∈ coords b := by
          have : coords F.1 = coords b := by unfold coords; rw [row, roh]
          rw [← this]; exact hp
        rw [(ropw p).1]
        rcases htsound p hprev with hrb | ⟨d, hd, hdp⟩
        · exact hph3 (by rw [rost] at hstF; exact hstF) p hp' hrb
        · have := (htfacts d hd).2.2.1
          rw [hdp] at this
          exact this
    have hFw : F.1.w = b.w := row
    have hFh : F.1.h = b.h := roh
    have hsound2 : ∀ p : Int × Int, (F.1.grid p).isRevealed = true →
        (b.grid p).isRevealed = true ∨ (b.grid p).isMine = true
          ∨ (b.grid p).isFlagged = false := by
      intro p hp
      rcases htsound p hp with hrb | ⟨d, hd, hdp⟩
      · exact Or.inl hrb
      · right; right
        have := (htfacts d hd).2.2.2.1
        rw [hdp] at this
        exact this
    by_cases h5 : checkWin F.1 = true
    · rw [if_pos (by rw [h5])] at hrv
      simp only [Option.some.injEq, Prod.mk.injEq] at hrv
      obtain ⟨hb, hres⟩ := hrv
      subst hb
      subst hres
      have hcw' : checkWin { F.1 with state := GState.won } = true := by
        unfold checkWin at h5 ⊢
        rw [Bool.and_eq_true] at h5 ⊢
        exact ⟨h5.1, by simp⟩
      refine ⟨?_, row, roh, romc, by rw [rofc]; exact hfc, rofl,
        fun p => (ropw p).1, fun p => (ropw p).2.1, romono, hsound2, ?_, ?_, ?_, ?_, ?_⟩
      · -- BoardInv of the won board
        obtain ⟨hcF, haF, hfrF, hp1F, hp2F, hp3F⟩ := hinvF
        refine ⟨hcF, haF, hfrF, ?_, ?_, ?_⟩
        · intro hcon
          have hconF : F.1.firstClick = true := hcon
          rw [rofc, hfc] at hconF
          exact absurd hconF (by simp)
        · intro hcon
          obtain ⟨-, hmc⟩ := hp2F (by rw [rofc]; exact hfc)
          exact ⟨by simp, hmc⟩
        · intro _ p hp hprev
          exact hp3F (by rw [rost]; exact hnl) p hp hprev
      · intro hcon
        exact absurd hcon (by simp)
      · intro _
        exact Or.inr ⟨rfl, hcw'⟩
      · -- keeps playing: contradiction with win
        intro hst _ hex
        exfalso
        obtain ⟨f, hfcrd, hff, hfm⟩ := hex
        have hfunrev : (b.grid f).isRevealed = false := by
          cases hbr : (b.grid f).isRevealed
          · rfl
          · exfalso
            have := hfr f hfcrd hbr hff
            rw [hfm] at this
            exact absurd this (by simp)
        have hfunrevF : (F.1.grid f).isRevealed = false := by
          cases hgr : (F.1.grid f).isRevealed
          · rfl
          · exfalso
            rcases hsound2 f hgr with hcon | hcon | hcon
            · rw [hfunrev] at hcon; exact absurd hcon (by simp)
            · rw [hfm] at hcon; exact absurd hcon (by simp)
            · rw [hff] at hcon; exact absurd hcon (by simp)
        have hfcF : f ∈ coords F.1 := by
          have : coords F.1 = coords b := by unfold coords; rw [row, roh]
          rw [this]; exact hfcrd
        have := checkWin_false_of_unrevealed_safe hinvF (by rw [rofc]; exact hfc) hfcF
          (by rw [(ropw f).1]; exact hfm) hfunrevF
        rw [h5] at this
        exact absurd this (by simp)
      · intro _ _ _ _ hcon
        exact absurd hcon (by simp [h4'])
      · intro _ p hp
        rcases htsound p hp with hrb | ⟨d, hd, hdp⟩
        · exact Or.inl hrb
        · right
          have hm' := (htfacts d hd).2.2.1
          have hfl' := (htfacts d hd).2.2.2.1
          rw [hdp] at hm' hfl'
          exact ⟨hm', hfl'⟩
    · rw [if_neg (by rw [Bool.not_eq_true] at h5 ⊢; rw [h5])] at hrv
      simp only [Option.some.injEq, Prod.mk.injEq] at hrv
      obtain ⟨hb, hres⟩ := hrv
      subst hb
      subst hres
      refine ⟨hinvF, row, roh, romc, by rw [rofc]; exact hfc, rofl,
        fun p => (ropw p).1, fun p => (ropw p).2.1, romono, hsound2, ?_, ?_, ?_, ?_, ?_⟩
      · intro hcon
        exact absurd hcon (by simp)
      · intro _
        exact Or.inl rost
      · intro hst _ _
        rw [rost]
        exact hst
      · intro _ _ _ _ hcon
        exact absurd hcon (by simp [h4'])
      · intro _ p hp
        rcases htsound p hp with hrb | ⟨d, hd, hdp⟩
        · exact Or.inl hrb
        · right
          have hm' := (htfacts d hd).2.2.1
          have hfl' := (htfacts d hd).2.2.2.1
          rw [hdp] at hm' hfl'
          exact ⟨hm', hfl'⟩

/-- On a fresh board, `reveal` first commits the mine layout and then behaves
exactly like `reveal` on the board with mines placed. -/
theorem reveal_place_eq {rand : Nat → Nat} {b : Board} {x y : Int}
    (hfc : b.firstClick = true) (hst : b.state = GState.ready)
    (hin : inB b.w b.h x y = true)
    (hflag : (b.grid (x, y)).isFlagged = false)
    (hrev : (b.grid (x, y)).isRevealed = false) :
    reveal rand b x y = reveal rand (placeMinesAvoiding rand b x y) x y := by
  have hterm : ¬(b.state = GState.lost ∨ b.state = GState.won) := by
    rw [hst]; simp
  have hterm' : ¬((placeMinesAvoiding rand b x y).state = GState.lost
      ∨ (placeMinesAvoiding rand b x y).state = GState.won) := by
    show ¬(GState.playing = GState.lost ∨ GState.playing = GState.won)
    simp
  have hin' : inB (placeMinesAvoiding rand b x y).w (placeMinesAvoiding rand b x y).h x y
      = true := hin
  have hflag' : ((placeMinesAvoiding rand b x y).grid (x, y)).isFlagged = false := by
    rw [placeMines_isFlagged]; exact hflag
  have hrev' : ((placeMinesAvoiding rand b x y).grid (x, y)).isRevealed = false := by
    rw [placeMines_isRevealed]; exact hrev
  have hguard : ¬((b.grid (x, y)).isFlagged = true ∨ (b.grid (x, y)).isRevealed = true) := by
    push_neg
    constructor
    · rw [hflag]; simp
    · rw [hrev]; simp
  have hguard' : ¬(((placeMinesAvoiding rand b x y).grid (x, y)).isFlagged = true
      ∨ ((placeMinesAvoiding rand b x y).grid (x, y)).isRevealed = true) := by
    push_neg
    constructor
    · rw [hflag']; simp
    · rw [hrev']; simp
  have hnfc : ¬((placeMinesAvoiding rand b x y).firstClick = true) := by
    show ¬(false = true)
    simp
  rw [reveal, reveal]
  rw [if_neg hterm, if_neg hterm', if_pos hin, if_pos hin']
  rw [if_neg hguard, if_neg hguard', if_pos hfc, if_neg hnfc]

theorem inv_reveal {rand : Nat → Nat} {b b' : Board} {res : RevealRes} {x y : Int}
    (hinv : BoardInv b) (hrv : reveal rand b x y = some (b', res)) : BoardInv b' := by
  cases hfc : b.firstClick
  · exact (reveal_full hinv hfc hrv).1
  · obtain ⟨hst, hm0, hfresh⟩ := hinv.2.2.2.1 hfc
    by_cases h2 : inB b.w b.h x y = true
    · by_cases h3 : (b.grid (x, y)).isFlagged = true ∨ (b.grid (x, y)).isRevealed = true
      · rw [reveal, if_neg (by rw [hst]; simp), if_pos h2, if_pos h3] at hrv
        simp only [Option.some.injEq, Prod.mk.injEq] at hrv
        rw [← hrv.1]
        exact hinv
      · push_neg at h3
        rw [reveal_place_eq hfc hst h2 (by simpa using h3.1) (by simpa using h3.2)] at hrv
        exact (reveal_full (inv_placeMines hinv hfc h2) rfl hrv).1
    · rw [reveal, if_neg (by rw [hst]; simp), if_neg (by simpa using h2)] at hrv
      exact absurd hrv (by simp)

/-! ### Chording -/

theorem countP_split {α : Type} (l : List α) (f g : α → Bool) :
    l.countP f = l.countP (fun a => f a && g a) + l.countP (fun a => f a && !g a) := by
  induction l with
  | nil => simp
  | cons x t ih =>
    rw [List.countP_cons, List.countP_cons, List.countP_cons]
    cases hf : f x <;> cases hg : g x <;> simp [hf, hg] <;> omega

theorem countP_exchange {α : Type} {l : List α} {f g : α → Bool}
    (heq : l.countP f = l.countP g) :
    l.countP (fun a => f a && !g a) = l.countP (fun a => g a && !f a) := by
  have h1 := countP_split l f g
  have h2 := countP_split l g f
  have h3 : l.countP (fun a => g a && f a) = l.countP (fun a => f a && g a) :=
    countP_agree (fun a _ => Bool.and_comm _ _)
  omega

theorem reveal_terminal {rand : Nat → Nat} {b : Board} {x y : Int}
    (h : b.state = GState.lost ∨ b.state = GState.won) :
    reveal rand b x y = some (b, ⟨[], false, false⟩) := by
  rw [reveal, if_pos h]

theorem reveal_some {rand : Nat → Nat} {b : Board} {x y : Int}
    (hin : inB b.w b.h x y = true) :
    ∃ br : Board × RevealRes, reveal rand b x y = some br := by
  by_cases h1 : b.state = GState.lost ∨ b.state = GState.won
  · exact ⟨_, reveal_terminal h1⟩
  rw [reveal, if_neg h1, if_pos hin]
  by_cases h3 : (b.grid (x, y)).isFlagged = true ∨ (b.grid (x, y)).isRevealed = true
  · rw [if_pos h3]
    exact ⟨_, rfl⟩
  rw [if_neg h3]
  by_cases h4 : ((if b.firstClick = true then placeMinesAvoiding rand b x y else b).grid
      (x, y)).isMine = true
  · rw [if_pos h4]
    exact ⟨_, rfl⟩
  · rw [if_neg h4]
    by_cases h5 : checkWin (bfs
        (if b.firstClick = true then placeMinesAvoiding rand b x y else b).w
        (if b.firstClick = true then placeMinesAvoiding rand b x y else b).h
        (9 * ((if b.firstClick = true then placeMinesAvoiding rand b x y else b).w
          * (if b.firstClick = true then placeMinesAvoiding rand b x y else b).h) + 1)
        (if b.firstClick = true then placeMinesAvoiding rand b x y else b) [(x, y)] []).1 = true
    · rw [if_pos h5]
      exact ⟨_, rfl⟩
    · rw [if_neg h5]
      exact ⟨_, rfl⟩

theorem chordLoop_on_lost {rand : Nat → Nat} {b : Board} (hst : b.state = GState.lost) :
    ∀ (L : List (Int × Int)) (e : Bool) (o : List Delta),
    chordLoop rand b L e o = some (b, e, o) := by
  intro L
  induction L with
  | nil => intro e o; rfl
  | cons p L' ih =>
    intro e o
    rw [chordLoop]
    by_cases hf : ¬(b.grid p).isFlagged = true ∧ ¬(b.grid p).isRevealed = true
    · rw [if_pos hf]
      rw [reveal_terminal (Or.inl hst)]
      show chordLoop rand b L' (e || false) (o ++ []) = some (b, e, o)
      simp only [Bool.or_false, List.append_nil]
      exact ih e o
    · rw [if_neg hf]
      exact ih e o

theorem chordLoop_main {rand : Nat → Nat} : ∀ (L : List (Int × Int)) (b : Board) (e : Bool)
    (o : List Delta), BoardInv b → b.firstClick = false →
    (∀ p ∈ L, inB b.w b.h p.1 p.2 = true) →
    ∃ br : Board × Bool × List Delta, chordLoop rand b L e o = some br
    ∧ BoardInv br.1
    ∧ br.1.w = b.w ∧ br.1.h = b.h ∧ br.1.mineCount = b.mineCount ∧ br.1.firstClick = false
    ∧ (∀ p : Int × Int, (br.1.grid p).isMine = (b.grid p).isMine)
    ∧ (∀ p : Int × Int, (br.1.grid p).isFlagged = (b.grid p).isFlagged)
    ∧ (∀ p : Int × Int, (b.grid p).isRevealed = true → (br.1.grid p).isRevealed = true)
    ∧ (e = true → br.2.1 = true)
    ∧ (br.2.1 = true → e = true ∨ ∃ n ∈ L, (b.grid n).isMine = true
        ∧ (b.grid n).isFlagged = false ∧ (b.grid n).isRevealed = false)
    ∧ (br.2.1 = true → e = true ∨ (br.1.state = GState.lost
        ∧ ∀ p ∈ coords b, (b.grid p).isMine = true → (br.1.grid p).isRevealed = true)) := by
  intro L
  induction L with
  | nil =>
    intro b e o hinv hfc _
    refine ⟨(b, e, o), rfl, hinv, rfl, rfl, rfl, hfc, fun _ => rfl, fun _ => rfl,
      fun _ hp => hp, fun he => he, fun he => Or.inl he, fun he => Or.inl he⟩
  | cons p L' ih =>
    intro b e o hinv hfc hL
    by_cases hpass : ¬(b.grid p).isFlagged = true ∧ ¬(b.grid p).isRevealed = true
    · obtain ⟨⟨b1, res⟩, hrev⟩ := @reveal_some rand b p.1 p.2
        (hL p (List.mem_cons_self _ _))
      have rf := reveal_full hinv hfc hrev
      obtain ⟨hinv1, h1w, h1h, h1mc, h1fc, h1fl, h1m, h1f, h1mono, h1sound,
        h1exp, h1nexp, h1keep, h1mexp, h1safe⟩ := rf
      have heq : chordLoop rand b (p :: L') e o
          = chordLoop rand b1 L' (e || res.exploded) (o ++ res.opened) := by
        rw [chordLoop, if_pos hpass, hrev]
      obtain ⟨br, hbr, hbrinv, hbw, hbh, hbmc, hbfc, hbm, hbf, hbmono, hbe,
        hbexp, hblost⟩ := ih b1 (e || res.exploded) (o ++ res.opened) hinv1 h1fc
        (by
          intro q hq
          rw [h1w, h1h]
          exact hL q (List.mem_cons_of_mem _ hq))
      refine ⟨br, heq.trans hbr, hbrinv, hbw.trans h1w, hbh.trans h1h,
        hbmc.trans h1mc, hbfc,
        fun q => (hbm q).trans (h1m q),
        fun q => (hbf q).trans (h1f q),
        fun q hq => hbmono q (h1mono q hq), ?_, ?_, ?_⟩
      · intro he
        exact hbe (by rw [he]; simp)
      · intro hexp2
        rcases hbexp hexp2 with hor | ⟨n, hn, hnm, hnf, hnr⟩
        · rw [Bool.or_eq_true] at hor
          rcases hor with he | hres
          · exact Or.inl he
          · right
            refine ⟨p, List.mem_cons_self _ _, (h1exp hres).2.2, ?_, ?_⟩
            · simpa using hpass.1
            · simpa using hpass.2
        · right
          refine ⟨n, List.mem_cons_of_mem _ hn, by rw [← h1m n]; exact hnm, ?_, ?_⟩
          · rw [← h1f n]; exact hnf
          · cases hbn : (b.grid n).isRevealed
            · rfl
            · exfalso
              rw [h1mono n hbn] at hnr
              exact absurd hnr (by simp)
      · intro hexp2
        rcases hblost hexp2 with hor | ⟨hls, hmr⟩
        · rw [Bool.or_eq_true] at hor
          rcases hor with he | hres
          · exact Or.inl he
          · right
            obtain ⟨hls1, hmr1, -⟩ := h1exp hres
            have hbr1 : chordLoop rand b1 L' (e || res.exploded) (o ++ res.opened)
                = some (b1, e || res.exploded, o ++ res.opened) :=
              chordLoop_on_lost hls1 L' _ _
            rw [hbr1] at hbr
            have hbrval : br = (b1, e || res.exploded, o ++ res.opened) := by
              injection hbr with hh
              exact hh.symm
            rw [hbrval]
            exact ⟨hls1, fun q hq hqm => hmr1 q hq hqm⟩
        · right
          refine ⟨hls, ?_⟩
          intro q hq hqm
          apply hmr q
          · show q ∈ coordList b1.w b1.h
            rw [h1w, h1h]
            exact hq
          · rw [h1m q]
            exact hqm
    · have heq : chordLoop rand b (p :: L') e o = chordLoop rand b L' e o := by
        rw [chordLoop, if_neg hpass]
      obtain ⟨br, hbr, hbrinv, hbw, hbh, hbmc, hbfc, hbm, hbf, hbmono, hbe,
        hbexp, hblost⟩ := ih b e o hinv hfc (fun q hq => hL q (List.mem_cons_of_mem _ hq))
      refine ⟨br, heq.trans hbr, hbrinv, hbw, hbh, hbmc, hbfc, hbm, hbf, hbmono,
        hbe, ?_, hblost⟩
      intro hexp2
      rcases hbexp hexp2 with he | ⟨n, hn, hfacts⟩
      · exact Or.inl he
      · exact Or.inr ⟨n, List.mem_cons_of_mem _ hn, hfacts⟩

theorem chordLoop_explodes {rand : Nat → Nat} : ∀ (L : List (Int × Int)) (b : Board) (e : Bool)
    (o : List Delta), BoardInv b → b.state = GState.playing → b.firstClick = false →
    (∀ p ∈ L, inB b.w b.h p.1 p.2 = true) →
    (∃ f ∈ coords b, (b.grid f).isFlagged = true ∧ (b.grid f).isMine = false) →
    (∃ n ∈ L, (b.grid n).isMine = true ∧ (b.grid n).isFlagged = false
      ∧ (b.grid n).isRevealed = false) →
    ∃ br : Board × Bool × List Delta, chordLoop rand b L e o = some br ∧ br.2.1 = true := by
  intro L
  induction L with
  | nil =>
    intro b e o _ _ _ _ _ hn
    obtain ⟨n, hn, -⟩ := hn
    simp at hn
  | cons p L' ih =>
    intro b e o hinv hst hfc hL hf hn
    obtain ⟨n, hnmem, hnm, hnf, hnr⟩ := hn
    by_cases hpass : ¬(b.grid p).isFlagged = true ∧ ¬(b.grid p).isRevealed = true
    · obtain ⟨⟨b1, res⟩, hrev⟩ := @reveal_some rand b p.1 p.2
        (hL p (List.mem_cons_self _ _))
      have rf := reveal_full hinv hfc hrev
      obtain ⟨hinv1, h1w, h1h, h1mc, h1fc, h1fl, h1m, h1f, h1mono, h1sound,
        h1exp, h1nexp, h1keep, h1mexp, h1safe⟩ := rf
      have heq : chordLoop rand b (p :: L') e o
          = chordLoop rand b1 L' (e || res.exploded) (o ++ res.opened) := by
        rw [chordLoop, if_pos hpass, hrev]
      cases hres : res.exploded
      · -- the head reveal did not explode; the mine witness n must differ from p
        have hnp : n ≠ p := by
          intro hcon
          subst hcon
          have := h1mexp hst (hL n (List.mem_cons_self _ _)) hnf hnr hnm
          rw [hres] at this
          exact absurd this (by simp)
        have hnmem' : n ∈ L' := by
          rcases List.mem_cons.mp hnmem with hcon | hm'
          · exact absurd hcon hnp
          · exact hm'
        have hst1 : b1.state = GState.playing := h1keep hst hres hf
        obtain ⟨f, hfmem, hff, hfm⟩ := hf
        have hf1 : ∃ f ∈ coords b1, (b1.grid f).isFlagged = true
            ∧ (b1.grid f).isMine = false := by
          refine ⟨f, ?_, by rw [h1f f]; exact hff, by rw [h1m f]; exact hfm⟩
          show f ∈ coordList b1.w b1.h
          rw [h1w, h1h]
          exact hfmem
        have hn1 : ∃ m ∈ L', (b1.grid m).isMine = true ∧ (b1.grid m).isFlagged = false
            ∧ (b1.grid m).isRevealed = false := by
          refine ⟨n, hnmem', by rw [h1m n]; exact hnm, by rw [h1f n]; exact hnf, ?_⟩
          cases hrev1 : (b1.grid n).isRevealed
          · rfl
          · exfalso
            rcases h1safe hres n hrev1 with hcon | ⟨hcon, -⟩
            · rw [hnr] at hcon; exact absurd hcon (by simp)
            · rw [hnm] at hcon; exact absurd hcon (by simp)
        obtain ⟨br, hbr, hexp⟩ := ih b1 (e || res.exploded) (o ++ res.opened) hinv1 hst1
          h1fc (by
            intro q hq
            rw [h1w, h1h]
            exact hL q (List.mem_cons_of_mem _ hq)) hf1 hn1
        exact ⟨br, heq.trans hbr, hexp⟩
      · -- the head reveal exploded
        obtain ⟨br, hbr, -, -, -, -, -, -, -, -, hbe, -, -⟩ :=
          chordLoop_main L' b1 (e || res.exploded) (o ++ res.opened) hinv1 h1fc (by
            intro q hq
            rw [h1w, h1h]
            exact hL q (List.mem_cons_of_mem _ hq))
        refine ⟨br, heq.trans hbr, hbe ?_⟩
        rw [hres]
        simp
    · have heq : chordLoop rand b (p :: L') e o = chordLoop rand b L' e o := by
        rw [chordLoop, if_neg hpass]
      have hnp : n ≠ p := by
        intro hcon
        subst hcon
        push_neg at hpass
        rcases Classical.em ((b.grid n).isFlagged = true) with hconf | hconf
        · rw [hnf] at hconf; exact absurd hconf (by simp)
        · have := hpass (by simpa using hconf)
          rw [hnr] at this
          exact absurd this (by simp)
      have hnmem' : n ∈ L' := by
        rcases List.mem_cons.mp hnmem with hcon | hm'
        · exact absurd hcon hnp
        · exact hm'
      obtain ⟨br, hbr, hexp⟩ := ih b e o hinv hst hfc
        (fun q hq => hL q (List.mem_cons_of_mem _ hq)) hf ⟨n, hnmem', hnm, hnf, hnr⟩
      exact ⟨br, heq.trans hbr, hexp⟩

theorem state_playing_firstClick {b : Board} (hinv : BoardInv b)
    (hst : b.state = GState.playing) : b.firstClick = false := by
  cases hfc : b.firstClick
  · rfl
  · exfalso
    have := (hinv.2.2.2.1 hfc).1
    rw [hst] at this
    exact absurd this (by simp)

theorem inv_chord {rand : Nat → Nat} {b b' : Board} {res : RevealRes} {x y : Int}
    (hinv : BoardInv b) (h : chord rand b x y = some (b', res)) : BoardInv b' := by
  simp only [chord] at h
  by_cases h1 : b.state ≠ GState.playing
  · rw [if_pos h1] at h
    simp only [Option.some.injEq, Prod.mk.injEq] at h
    rw [← h.1]
    exact hinv
  rw [if_neg h1] at h
  push_neg at h1
  have hfc : b.firstClick = false := state_playing_firstClick hinv h1
  by_cases h2 : inB b.w b.h x y = true
  case neg =>
    rw [if_neg (by simpa using h2)] at h
    exact absurd h (by simp)
  rw [if_pos h2] at h
  by_cases h3 : ¬(b.grid (x, y)).isRevealed = true ∨ (b.grid (x, y)).adj ≤ 0
  · rw [if_pos h3] at h
    simp only [Option.some.injEq, Prod.mk.injEq] at h
    rw [← h.1]
    exact hinv
  rw [if_neg h3] at h
  by_cases h4 : ((((neighborsList b.w b.h x y).filter
      (fun p => (b.grid p).isFlagged)).length : Int) ≠ (b.grid (x, y)).adj)
  · rw [if_pos h4] at h
    simp only [Option.some.injEq, Prod.mk.injEq] at h
    rw [← h.1]
    exact hinv
  rw [if_neg h4] at h
  obtain ⟨br, hbr, hbrinv, -⟩ := @chordLoop_main rand
    (neighborsList b.w b.h x y) b false [] hinv hfc
    (fun p hp => mem_neighborsList_inB hp)
  obtain ⟨b2, e2, o2⟩ := br
  rw [hbr] at h
  have h' : some (b2, (⟨o2, e2, checkWin b2⟩ : RevealRes)) = some (b', res) := h
  simp only [Option.some.injEq, Prod.mk.injEq] at h'
  rw [← h'.1]
  exact hbrinv

theorem reachable_inv : ∀ {b : Board}, Reachable b → BoardInv b := by
  intro b hr
  induction hr with
  | init w h m hm => exact inv_mkBoard w h m hm
  | reveal rand x y hr hstep ih => exact inv_reveal ih hstep
  | flag x y q hr hstep ih => exact inv_toggleFlag ih hstep
  | chord rand x y hr hstep ih => exact inv_chord ih hstep

/-! ### Flood-fill completeness: the fuel is irrelevant and the BFS computes
the reveal closure -/

/-- Number of unrevealed cells on the grid. -/
def unrevCnt (w h : Nat) (g : Int × Int → Cell) : Nat :=
  (coordList w h).countP (fun p => !(g p).isRevealed)

theorem unrev_decrease {w h : Nat} {g : Int × Int → Cell} {p : Int × Int}
    (hin : inB w h p.1 p.2 = true) (hunrev : (g p).isRevealed = false)
    {c : Cell} (hc : c.isRevealed = true) :
    unrevCnt w h (setCell g p c) + 1 = unrevCnt w h g := by
  have hpc : p ∈ coordList w h := mem_coordList.mpr hin
  have := countP_setCell (coordList_nodup w h) hpc g c (fun cl => !cl.isRevealed)
  rw [hunrev, hc] at this
  simp at this
  unfold unrevCnt
  omega

theorem bfs_nil (w h : Nat) (fuel : Nat) (b : Board) (o : List Delta) :
    bfs w h fuel b [] o = (b, o) := by
  cases fuel <;> rfl

theorem bfs_rev_mono (w h : Nat) : ∀ (fuel : Nat) (b : Board) (q : List (Int × Int))
    (o : List Delta) (p : Int × Int), (b.grid p).isRevealed = true →
    ((bfs w h fuel b q o).1.grid p).isRevealed = true := by
  intro fuel
  induction fuel with
  | zero =>
    intro b q o p hp
    rw [show bfs w h 0 b q o = (b, o) by cases q <;> rfl]
    exact hp
  | succ fuel ih =>
    intro b q o p hp
    match q with
    | [] => rw [bfs_nil]; exact hp
    | (cx, cy) :: q' =>
      by_cases hskip : (b.grid (cx, cy)).isRevealed = true ∨ (b.grid (cx, cy)).isFlagged = true
      · rw [show bfs w h (fuel+1) b ((cx,cy)::q') o = bfs w h fuel b q' o by
          show (if (b.grid (cx,cy)).isRevealed = true ∨ (b.grid (cx,cy)).isFlagged = true
            then bfs w h fuel b q' o else _) = _
          rw [if_pos hskip]]
        exact ih b q' o p hp
      · have hrev0 : (b.grid (cx, cy)).isRevealed = false := by
          push_neg at hskip
          simpa using hskip.1
        have hflag0 : (b.grid (cx, cy)).isFlagged = false := by
          push_neg at hskip
          simpa using hskip.2
        have hmono1 : ((bfsStep b cx cy).grid p).isRevealed = true :=
          (bfsStep_revealed_iff b cx cy p).mpr (Or.inl hp)
        by_cases hz : (b.grid (cx, cy)).adj = 0
        · rw [show bfs w h (fuel+1) b ((cx,cy)::q') o
              = bfs w h fuel (bfsStep b cx cy)
                (q' ++ (neighborsList w h cx cy).filter
                  (fun n => ¬((bfsStep b cx cy).grid n).isRevealed
                    ∧ ¬((bfsStep b cx cy).grid n).isFlagged))
                (o ++ [⟨cx, cy, { b.grid (cx, cy) with isRevealed := true },
                  false, false, false⟩]) by
            show (if (b.grid (cx,cy)).isRevealed = true ∨ (b.grid (cx,cy)).isFlagged = true
              then _ else if (b.grid (cx,cy)).adj = 0 then _ else _) = _
            rw [if_neg (by push_neg; exact ⟨by simp [hrev0], by simp [hflag0]⟩), if_pos hz]
            rfl]
          exact ih _ _ _ p hmono1
        · rw [show bfs w h (fuel+1) b ((cx,cy)::q') o
              = bfs w h fuel (bfsStep b cx cy) q'
                (o ++ [⟨cx, cy, { b.grid (cx, cy) with isRevealed := true },
                  false, false, false⟩]) by
            show (if (b.grid (cx,cy)).isRevealed = true ∨ (b.grid (cx,cy)).isFlagged = true
              then _ else if (b.grid (cx,cy)).adj = 0 then _ else _) = _
            rw [if_neg (by push_neg; exact ⟨by simp [hrev0], by simp [hflag0]⟩), if_neg hz]
            rfl]
          exact ih _ _ _ p hmono1

theorem bfs_step_skip {w h : Nat} {b : Board} {cx cy : Int}
    (hskip : (b.grid (cx, cy)).isRevealed = true ∨ (b.grid (cx, cy)).isFlagged = true)
    (fuel : Nat) (q' : List (Int × Int)) (o : List Delta) :
    bfs w h (fuel + 1) b ((cx, cy) :: q') o = bfs w h fuel b q' o := by
  show (if (b.grid (cx,cy)).isRevealed = true ∨ (b.grid (cx,cy)).isFlagged = true
    then bfs w h fuel b q' o else _) = _
  rw [if_pos hskip]

theorem bfs_step_expand {w h : Nat} {b : Board} {cx cy : Int}
    (hrev0 : (b.grid (cx, cy)).isRevealed = false)
    (hflag0 : (b.grid (cx, cy)).isFlagged = false)
    (hz : (b.grid (cx, cy)).adj = 0)
    (fuel : Nat) (q' : List (Int × Int)) (o : List Delta) :
    bfs w h (fuel + 1) b ((cx, cy) :: q') o
      = bfs w h fuel (bfsStep b cx cy)
        (q' ++ (neighborsList w h cx cy).filter
          (fun n => ¬((bfsStep b cx cy).grid n).isRevealed
            ∧ ¬((bfsStep b cx cy).grid n).isFlagged))
        (o ++ [⟨cx, cy, { b.grid (cx, cy) with isRevealed := true }, false, false, false⟩]) := by
  show (if (b.grid (cx,cy)).isRevealed = true ∨ (b.grid (cx,cy)).isFlagged = true
    then _ else if (b.grid (cx,cy)).adj = 0 then _ else _) = _
  rw [if_neg (by push_neg; exact ⟨by simp [hrev0], by simp [hflag0]⟩), if_pos hz]
  rfl

theorem bfs_step_noexpand {w h : Nat} {b : Board} {cx cy : Int}
    (hrev0 : (b.grid (cx, cy)).isRevealed = false)
    (hflag0 : (b.grid (cx, cy)).isFlagged = false)
    (hz : ¬((b.grid (cx, cy)).adj = 0))
    (fuel : Nat) (q' : List (Int × Int)) (o : List Delta) :
    bfs w h (fuel + 1) b ((cx, cy) :: q') o
      = bfs w h fuel (bfsStep b cx cy) q'
        (o ++ [⟨cx, cy, { b.grid (cx, cy) with isRevealed := true }, false, false, false⟩]) := by
  show (if (b.grid (cx,cy)).isRevealed = true ∨ (b.grid (cx,cy)).isFlagged = true
    then _ else if (b.grid (cx,cy)).adj = 0 then _ else _) = _
  rw [if_neg (by push_neg; exact ⟨by simp [hrev0], by simp [hflag0]⟩), if_neg hz]
  rfl

theorem bfs_fuel_irrelevant (w h : Nat) : ∀ (n m : Nat) (b : Board) (q : List (Int × Int))
    (o : List Delta),
    (∀ p ∈ q, inB w h p.1 p.2 = true) →
    9 * unrevCnt w h b.grid + q.length ≤ n →
    9 * unrevCnt w h b.grid + q.length ≤ m →
    bfs w h n b q o = bfs w h m b q o := by
  intro n
  induction n with
  | zero =>
    intro m b q o hq hn hm
    match q with
    | [] => rw [bfs_nil, bfs_nil]
    | p :: q' => simp at hn
  | succ n ih =>
    intro m b q o hq hn hm
    match q with
    | [] => rw [bfs_nil, bfs_nil]
    | (cx, cy) :: q' =>
      have hlen : 1 ≤ ((cx, cy) :: q').length := by simp
      match m with
      | 0 => simp at hm
      | m + 1 =>
        have hin : inB w h cx cy = true := hq (cx, cy) (List.mem_cons_self _ _)
        have hq' : ∀ p ∈ q', inB w h p.1 p.2 = true :=
          fun p hp => hq p (List.mem_cons_of_mem _ hp)
        by_cases hskip : (b.grid (cx, cy)).isRevealed = true ∨ (b.grid (cx, cy)).isFlagged = true
        · rw [bfs_step_skip hskip, bfs_step_skip hskip]
          apply ih m b q' o hq'
          · simp only [List.length_cons] at hn; omega
          · simp only [List.length_cons] at hm; omega
        · push_neg at hskip
          have hrev0 : (b.grid (cx, cy)).isRevealed = false := by simpa using hskip.1
          have hflag0 : (b.grid (cx, cy)).isFlagged = false := by simpa using hskip.2
          have hdec : unrevCnt w h (bfsStep b cx cy).grid + 1 = unrevCnt w h b.grid := by
            show unrevCnt w h (setCell b.grid (cx, cy)
              { b.grid (cx, cy) with isRevealed := true }) + 1 = _
            exact unrev_decrease hin hrev0 rfl
          by_cases hz : (b.grid (cx, cy)).adj = 0
          · rw [bfs_step_expand hrev0 hflag0 hz, bfs_step_expand hrev0 hflag0 hz]
            apply ih m (bfsStep b cx cy) _ _
            · intro p hp
              rcases List.mem_append.mp hp with hp' | hp'
              · exact hq' p hp'
              · exact mem_neighborsList_inB (List.mem_filter.mp hp').1
            · have hpush : ((neighborsList w h cx cy).filter
                  (fun n => ¬((bfsStep b cx cy).grid n).isRevealed
                    ∧ ¬((bfsStep b cx cy).grid n).isFlagged)).length ≤ 8 := by
                calc _ ≤ (neighborsList w h cx cy).length := List.length_filter_le _ _
                  _ ≤ 8 := neighborsList_length_le w h cx cy
              rw [List.length_append]
              simp only [List.length_cons] at hn
              omega
            · have hpush : ((neighborsList w h cx cy).filter
                  (fun n => ¬((bfsStep b cx cy).grid n).isRevealed
                    ∧ ¬((bfsStep b cx cy).grid n).isFlagged)).length ≤ 8 := by
                calc _ ≤ (neighborsList w h cx cy).length := List.length_filter_le _ _
                  _ ≤ 8 := neighborsList_length_le w h cx cy
              rw [List.length_append]
              simp only [List.length_cons] at hm
              omega
          · rw [bfs_step_noexpand hrev0 hflag0 hz, bfs_step_noexpand hrev0 hflag0 hz]
            apply ih m (bfsStep b cx cy) _ _ hq'
            · simp only [List.length_cons] at hn; omega
            · simp only [List.length_cons] at hm; omega

theorem bfsStep_flag (b : Board) (cx cy : Int) (p : Int × Int) :
    ((bfsStep b cx cy).grid p).isFlagged = (b.grid p).isFlagged := by
  by_cases hp : p = (cx, cy)
  · subst hp
    show (setCell b.grid (cx,cy) _ (cx,cy)).isFlagged = _
    rw [setCell_same]
  · show (setCell b.grid (cx,cy) _ p).isFlagged = _
    rw [setCell_other _ _ _ _ hp]

theorem bfsStep_adj (b : Board) (cx cy : Int) (p : Int × Int) :
    ((bfsStep b cx cy).grid p).adj = (b.grid p).adj := by
  by_cases hp : p = (cx, cy)
  · subst hp
    show (setCell b.grid (cx,cy) _ (cx,cy)).adj = _
    rw [setCell_same]
  · show (setCell b.grid (cx,cy) _ p).adj = _
    rw [setCell_other _ _ _ _ hp]

theorem bfs_queue_revealed (w h : Nat) : ∀ (fuel : Nat) (b : Board) (q : List (Int × Int))
    (o : List Delta),
    (∀ p ∈ q, inB w h p.1 p.2 = true) →
    (∀ p ∈ coordList w h, (b.grid p).isFlagged = false) →
    9 * unrevCnt w h b.grid + q.length ≤ fuel →
    ∀ p ∈ q, ((bfs w h fuel b q o).1.grid p).isRevealed = true := by
  intro fuel
  induction fuel with
  | zero =>
    intro b q o hq hfl hcnt p hp
    match q with
    | [] => simp at hp
    | r :: q' => simp at hcnt
  | succ fuel ih =>
    intro b q o hq hfl hcnt p hp
    match q with
    | [] => simp at hp
    | (cx, cy) :: q' =>
      have hin : inB w h cx cy = true := hq (cx, cy) (List.mem_cons_self _ _)
      have hq' : ∀ r ∈ q', inB w h r.1 r.2 = true :=
        fun r hr => hq r (List.mem_cons_of_mem _ hr)
      have hflcc : (b.grid (cx, cy)).isFlagged = false := hfl _ (mem_coordList.mpr hin)
      by_cases hrevcc : (b.grid (cx, cy)).isRevealed = true
      · rw [bfs_step_skip (Or.inl hrevcc)]
        rcases List.mem_cons.mp hp with rfl | hp'
        · exact bfs_rev_mono w h fuel b q' o _ hrevcc
        · apply ih b q' o hq' hfl _ p hp'
          simp only [List.length_cons] at hcnt
          omega
      · have hrev0 : (b.grid (cx, cy)).isRevealed = false := eq_false_of_ne_true hrevcc
        have hdec : unrevCnt w h (bfsStep b cx cy).grid + 1 = unrevCnt w h b.grid := by
          show unrevCnt w h (setCell b.grid (cx, cy)
            { b.grid (cx, cy) with isRevealed := true }) + 1 = _
          exact unrev_decrease hin hrev0 rfl
        have hfl' : ∀ r ∈ coordList w h, ((bfsStep b cx cy).grid r).isFlagged = false := by
          intro r hr
          rw [bfsStep_flag]
          exact hfl r hr
        by_cases hz : (b.grid (cx, cy)).adj = 0
        · rw [bfs_step_expand hrev0 hflcc hz]
          rcases List.mem_cons.mp hp with rfl | hp'
          · exact bfs_rev_mono w h fuel _ _ _ _ (bfsStep_revealed_self b cx cy)
          · apply ih (bfsStep b cx cy) _ _
              (by
                intro r hr
                rcases List.mem_append.mp hr with hr' | hr'
                · exact hq' r hr'
                · exact mem_neighborsList_inB (List.mem_filter.mp hr').1)
              hfl' _ p (List.mem_append.mpr (Or.inl hp'))
            have hpush : ((neighborsList w h cx cy).filter
                (fun n => ¬((bfsStep b cx cy).grid n).isRevealed
                  ∧ ¬((bfsStep b cx cy).grid n).isFlagged)).length ≤ 8 := by
              calc _ ≤ (neighborsList w h cx cy).length := List.length_filter_le _ _
                _ ≤ 8 := neighborsList_length_le w h cx cy
            rw [List.length_append]
            simp only [List.length_cons] at hcnt
            omega
        · rw [bfs_step_noexpand hrev0 hflcc hz]
          rcases List.mem_cons.mp hp with rfl | hp'
          · exact bfs_rev_mono w h fuel _ _ _ _ (bfsStep_revealed_self b cx cy)
          · apply ih (bfsStep b cx cy) _ _ hq' hfl' _ p hp'
            simp only [List.length_cons] at hcnt
            omega

theorem bfs_closure (w h : Nat) : ∀ (fuel : Nat) (b : Board) (q : List (Int × Int))
    (o : List Delta),
    (∀ p ∈ q, inB w h p.1 p.2 = true) →
    (∀ p ∈ coordList w h, (b.grid p).isFlagged = false) →
    9 * unrevCnt w h b.grid + q.length ≤ fuel →
    (∀ p : Int × Int, inB w h p.1 p.2 = true → (b.grid p).isRevealed = true →
      (b.grid p).adj = 0 → ∀ nb ∈ neighborsList w h p.1 p.2,
        (b.grid nb).isRevealed = true ∨ nb ∈ q) →
    ∀ p : Int × Int, inB w h p.1 p.2 = true →
      ((bfs w h fuel b q o).1.grid p).isRevealed = true →
      ((bfs w h fuel b q o).1.grid p).adj = 0 →
      ∀ nb ∈ neighborsList w h p.1 p.2,
        ((bfs w h fuel b q o).1.grid nb).isRevealed = true := by
  intro fuel
  induction fuel with
  | zero =>
    intro b q o hq hfl hcnt hclosed p hpin hprev hpadj nb hnb
    match q with
    | [] =>
      rw [bfs_nil] at hprev hpadj ⊢
      rcases hclosed p hpin hprev hpadj nb hnb with hc | hc
      · exact hc
      · simp at hc
    | r :: q' => simp at hcnt
  | succ fuel ih =>
    intro b q o hq hfl hcnt hclosed p hpin hprev hpadj nb hnb
    match q with
    | [] =>
      rw [bfs_nil] at hprev hpadj ⊢
      rcases hclosed p hpin hprev hpadj nb hnb with hc | hc
      · exact hc
      · simp at hc
    | (cx, cy) :: q' =>
      have hin : inB w h cx cy = true := hq (cx, cy) (List.mem_cons_self _ _)
      have hq' : ∀ r ∈ q', inB w h r.1 r.2 = true :=
        fun r hr => hq r (List.mem_cons_of_mem _ hr)
      have hflcc : (b.grid (cx, cy)).isFlagged = false := hfl _ (mem_coordList.mpr hin)
      by_cases hrevcc : (b.grid (cx, cy)).isRevealed = true
      · rw [bfs_step_skip (Or.inl hrevcc)] at hprev hpadj ⊢
        refine ih b q' o hq' hfl (by simp only [List.length_cons] at hcnt; omega) ?_
          p hpin hprev hpadj nb hnb
        intro r hrin hrrev hradj nr hnr
        rcases hclosed r hrin hrrev hradj nr hnr with hc | hc
        · exact Or.inl hc
        · rcases List.mem_cons.mp hc with rfl | hc'
          · exact Or.inl hrevcc
          · exact Or.inr hc'
      · have hrev0 : (b.grid (cx, cy)).isRevealed = false := eq_false_of_ne_true hrevcc
        have hdec : unrevCnt w h (bfsStep b cx cy).grid + 1 = unrevCnt w h b.grid := by
          show unrevCnt w h (setCell b.grid (cx, cy)
            { b.grid (cx, cy) with isRevealed := true }) + 1 = _
          exact unrev_decrease hin hrev0 rfl
        have hfl' : ∀ r ∈ coordList w h, ((bfsStep b cx cy).grid r).isFlagged = false := by
          intro r hr
          rw [bfsStep_flag]
          exact hfl r hr
        by_cases hz : (b.grid (cx, cy)).adj = 0
        · rw [bfs_step_expand hrev0 hflcc hz] at hprev hpadj ⊢
          refine ih (bfsStep b cx cy) _ _
            (by
              intro r hr
              rcases List.mem_append.mp hr with hr' | hr'
              · exact hq' r hr'
              · exact mem_neighborsList_inB (List.mem_filter.mp hr').1)
            hfl'
            (by
              have hpush : ((neighborsList w h cx cy).filter
                  (fun n => ¬((bfsStep b cx cy).grid n).isRevealed
                    ∧ ¬((bfsStep b cx cy).grid n).isFlagged)).length ≤ 8 := by
                calc _ ≤ (neighborsList w h cx cy).length := List.length_filter_le _ _
                  _ ≤ 8 := neighborsList_length_le w h cx cy
              rw [List.length_append]
              simp only [List.length_cons] at hcnt
              omega)
            ?_ p hpin hprev hpadj nb hnb
          intro r hrin hrrev hradj nr hnr
          by_cases hrc : r = (cx, cy)
          · -- the newly revealed zero cell: neighbors are revealed or pushed
            subst hrc
            cases hnrrev : ((bfsStep b cx cy).grid nr).isRevealed
            · right
              refine List.mem_append.mpr (Or.inr (List.mem_filter.mpr ⟨?_, ?_⟩))
              · rw [bfsStep_adj] at hradj
                exact hnr
              · have hnrfl : ((bfsStep b cx cy).grid nr).isFlagged = false := by
                  rw [bfsStep_flag]
                  exact hfl nr (mem_neighborsList_coords hnr)
                rw [hnrrev, hnrfl]
                simp
            · exact Or.inl rfl
          · have hrrevb : (b.grid r).isRevealed = true := by
              have : (bfsStep b cx cy).grid r = b.grid r := setCell_other _ _ _ _ hrc
              rw [← this]
              exact hrrev
            have hradjb : (b.grid r).adj = 0 := by
              rw [bfsStep_adj] at hradj
              exact hradj
            rcases hclosed r hrin hrrevb hradjb nr hnr with hc | hc
            · left
              exact (bfsStep_revealed_iff b cx cy nr).mpr (Or.inl hc)
            · rcases List.mem_cons.mp hc with rfl | hc'
              · left
                exact bfsStep_revealed_self b cx cy
              · exact Or.inr (List.mem_append.mpr (Or.inl hc'))
        · rw [bfs_step_noexpand hrev0 hflcc hz] at hprev hpadj ⊢
          refine ih (bfsStep b cx cy) _ _ hq' hfl'
            (by simp only [List.length_cons] at hcnt; omega)
            ?_ p hpin hprev hpadj nb hnb
          intro r hrin hrrev hradj nr hnr
          by_cases hrc : r = (cx, cy)
          · subst hrc
            exfalso
            rw [bfsStep_adj] at hradj
            exact hz hradj
          · have hrrevb : (b.grid r).isRevealed = true := by
              have : (bfsStep b cx cy).grid r = b.grid r := setCell_other _ _ _ _ hrc
              rw [← this]
              exact hrrev
            have hradjb : (b.grid r).adj = 0 := by
              rw [bfsStep_adj] at hradj
              exact hradj
            rcases hclosed r hrin hrrevb hradjb nr hnr with hc | hc
            · left
              exact (bfsStep_revealed_iff b cx cy nr).mpr (Or.inl hc)
            · rcases List.mem_cons.mp hc with rfl | hc'
              · left
                exact bfsStep_revealed_self b cx cy
              · exact Or.inr hc'

theorem bfs_sound (w h : Nat) (R : (Int × Int) → Prop) : ∀ (fuel : Nat) (b : Board)
    (q : List (Int × Int)) (o : List Delta),
    (∀ p ∈ q, inB w h p.1 p.2 = true) →
    (∀ p ∈ q, R p) →
    (∀ p : Int × Int, R p → inB w h p.1 p.2 = true → (b.grid p).adj = 0 →
      ∀ nb ∈ neighborsList w h p.1 p.2, R nb) →
    ∀ p : Int × Int, ((bfs w h fuel b q o).1.grid p).isRevealed = true →
      (b.grid p).isRevealed = true ∨ R p := by
  intro fuel
  induction fuel with
  | zero =>
    intro b q o _ _ _ p hp
    rw [show bfs w h 0 b q o = (b, o) by cases q <;> rfl] at hp
    exact Or.inl hp
  | succ fuel ih =>
    intro b q o hqin hqR hstep p hp
    match q with
    | [] =>
      rw [bfs_nil] at hp
      exact Or.inl hp
    | (cx, cy) :: q' =>
      have hccR : R (cx, cy) := hqR (cx, cy) (List.mem_cons_self _ _)
      have hccin : inB w h cx cy = true := hqin (cx, cy) (List.mem_cons_self _ _)
      have hq'R : ∀ r ∈ q', R r := fun r hr => hqR r (List.mem_cons_of_mem _ hr)
      have hq'in : ∀ r ∈ q', inB w h r.1 r.2 = true :=
        fun r hr => hqin r (List.mem_cons_of_mem _ hr)
      by_cases hskip : (b.grid (cx, cy)).isRevealed = true ∨ (b.grid (cx, cy)).isFlagged = true
      · rw [bfs_step_skip hskip] at hp
        exact ih b q' o hq'in hq'R hstep p hp
      · push_neg at hskip
        have hrev0 : (b.grid (cx, cy)).isRevealed = false := by simpa using hskip.1
        have hflag0 : (b.grid (cx, cy)).isFlagged = false := by simpa using hskip.2
        have hstep' : ∀ r : Int × Int, R r → inB w h r.1 r.2 = true →
            ((bfsStep b cx cy).grid r).adj = 0 →
            ∀ nr ∈ neighborsList w h r.1 r.2, R nr := by
          intro r hr hrin hradj
          rw [bfsStep_adj] at hradj
          exact hstep r hr hrin hradj
        have hconc : ∀ s : Int × Int, ((bfsStep b cx cy).grid s).isRevealed = true →
            (b.grid s).isRevealed = true ∨ R s := by
          intro s hs
          rcases (bfsStep_revealed_iff b cx cy s).mp hs with hs' | hs'
          · exact Or.inl hs'
          · rw [hs']
            exact Or.inr hccR
        by_cases hz : (b.grid (cx, cy)).adj = 0
        · rw [bfs_step_expand hrev0 hflag0 hz] at hp
          have := ih (bfsStep b cx cy) _ _
            (by
              intro r hr
              rcases List.mem_append.mp hr with hr' | hr'
              · exact hq'in r hr'
              · exact mem_neighborsList_inB (List.mem_filter.mp hr').1)
            (by
              intro r hr
              rcases List.mem_append.mp hr with hr' | hr'
              · exact hq'R r hr'
              · exact hstep (cx, cy) hccR hccin hz r (List.mem_filter.mp hr').1)
            hstep' p hp
          rcases this with hthis | hthis
          · exact hconc p hthis
          · exact Or.inr hthis
        · rw [bfs_step_noexpand hrev0 hflag0 hz] at hp
          have := ih (bfsStep b cx cy) _ _ hq'in hq'R hstep' p hp
          rcases this with hthis | hthis
          · exact hconc p hthis
          · exact Or.inr hthis

/-- The reveal closure of a click at `s`: the connected region of
zero-adjacency cells through `s` together with its bordering cells. -/
inductive ZeroReach (w h : Nat) (g : Int × Int → Cell) (s : Int × Int) : (Int × Int) → Prop where
  | base : ZeroReach w h g s s
  | step {p n : Int × Int} : ZeroReach w h g s p → inB w h p.1 p.2 = true →
      (g p).adj = 0 → n ∈ neighborsList w h p.1 p.2 → ZeroReach w h g s n

theorem reveal_flood_exact {rand : Nat → Nat} {b : Board} {x y : Int}
    (hadj : AdjOK b)
    (hst : b.state = GState.playing)
    (hfc : b.firstClick = false)
    (hnofl : ∀ p ∈ coords b, (b.grid p).isFlagged = false)
    (hnorev : ∀ p ∈ coords b, (b.grid p).isRevealed = false)
    (hin : inB b.w b.h x y = true)
    (hz : (b.grid (x, y)).adj = 0) :
    ∃ br : Board × RevealRes, reveal rand b x y = some br
    ∧ (∀ p : Int × Int, inB b.w b.h p.1 p.2 = true →
        ((br.1.grid p).isRevealed = true ↔ ZeroReach b.w b.h b.grid (x, y) p))
    ∧ (br.2.opened.map (fun d => (d.x, d.y))).Nodup
    ∧ (∀ p : Int × Int, inB b.w b.h p.1 p.2 = true →
        ((∃ d ∈ br.2.opened, (d.x, d.y) = p) ↔ ZeroReach b.w b.h b.grid (x, y) p)) := by
  have hxyc : (x, y) ∈ coords b := mem_coordList.mpr hin
  have hmine : (b.grid (x, y)).isMine = false := by
    have := hadj (x, y) hxyc
    cases hm : (b.grid (x, y)).isMine
    · rfl
    · rw [if_pos hm] at this
      rw [hz] at this
      exact absurd this (by decide)
  have hflag : (b.grid (x, y)).isFlagged = false := hnofl _ hxyc
  have hrev : (b.grid (x, y)).isRevealed = false := hnorev _ hxyc
  have hfuel : 9 * unrevCnt b.w b.h b.grid + 1 ≤ 9 * (b.w * b.h) + 1 := by
    have := List.countP_le_length (l := coordList b.w b.h)
      (p := fun p => !(b.grid p).isRevealed)
    unfold unrevCnt
    have hlen := coordList_length b.w b.h
    omega
  have hq1 : ∀ p ∈ [(x, y)], inB b.w b.h p.1 p.2 = true := by
    intro p hp
    rcases List.mem_cons.mp hp with rfl | hp'
    · exact hin
    · simp at hp'
  -- the flood fill call inside `reveal`
  set F := bfs b.w b.h (9 * (b.w * b.h) + 1) b [(x, y)] [] with hF
  have hmaster := bfs_master b.w b.h (9 * (b.w * b.h) + 1) b [(x, y)] [] rfl rfl
    (by
      intro p hp
      rcases List.mem_cons.mp hp with rfl | hp'
      · exact ⟨hin, hmine⟩
      · simp at hp')
    hadj
  obtain ⟨hro, hcnt, t, hteq, htfacts, htnodup, htcount, htsound⟩ := hmaster
  obtain ⟨row, roh, rost, rofc, romc, rofl, ropw, romono⟩ := hro
  -- revealed-iff-closure on the flood result
  have hiff : ∀ p : Int × Int, inB b.w b.h p.1 p.2 = true →
      ((F.1.grid p).isRevealed = true ↔ ZeroReach b.w b.h b.grid (x, y) p) := by
    intro p hpin
    constructor
    · intro hp
      rcases bfs_sound b.w b.h (ZeroReach b.w b.h b.grid (x, y)) (9 * (b.w * b.h) + 1)
        b [(x, y)] [] hq1
        (by
          intro r hr
          rcases List.mem_cons.mp hr with rfl | hr'
          · exact ZeroReach.base
          · simp at hr')
        (fun r hr hrin hradj nr hnr => ZeroReach.step hr hrin hradj hnr)
        p hp with hc | hc
      · rw [hnorev p (mem_coordList.mpr hpin)] at hc
        exact absurd hc (by simp)
      · exact hc
    · intro hzr
      clear hpin
      induction hzr with
      | base =>
        exact bfs_queue_revealed b.w b.h (9 * (b.w * b.h) + 1) b [(x, y)] [] hq1
          hnofl (by simpa using hfuel) (x, y) (List.mem_cons_self _ _)
      | step hzr' hrin hradj hnr ihz =>
        rename_i r nr
        have hrrev : (F.1.grid r).isRevealed = true := ihz
        exact bfs_closure b.w b.h (9 * (b.w * b.h) + 1) b [(x, y)] [] hq1 hnofl
          (by simpa using hfuel)
          (by
            intro s hsin hsrev _ _ _
            rw [hnorev s (mem_coordList.mpr hsin)] at hsrev
            exact absurd hsrev (by simp))
          r hrin hrrev (by rw [(ropw r).2.2.2]; exact hradj) nr hnr
  -- unfold the reveal call down to the flood-fill branch
  have hterm : ¬(b.state = GState.lost ∨ b.state = GState.won) := by rw [hst]; simp
  have hguard : ¬((b.grid (x, y)).isFlagged = true ∨ (b.grid (x, y)).isRevealed = true) := by
    push_neg
    exact ⟨by simp [hflag], by simp [hrev]⟩
  have hb1 : (if b.firstClick = true then placeMinesAvoiding rand b x y else b) = b := by
    rw [hfc]
    simp
  have hopen_t : (bfs b.w b.h (9 * (b.w * b.h) + 1) b [(x, y)] []).2 = t := by
    rw [hteq]
    simp
  have htrev : ∀ d ∈ t, ((F.1.grid (d.x, d.y)).isRevealed = true) := by
    intro d hd
    exact (htfacts d hd).2.2.2.2.2.2.2.2
  have hopened_iff : ∀ p : Int × Int, inB b.w b.h p.1 p.2 = true →
      ((∃ d ∈ t, (d.x, d.y) = p) ↔ ZeroReach b.w b.h b.grid (x, y) p) := by
    intro p hpin
    constructor
    · rintro ⟨d, hd, rfl⟩
      exact (hiff (d.x, d.y) hpin).mp (htrev d hd)
    · intro hzr
      have hrevp := (hiff p hpin).mpr hzr
      rcases htsound p hrevp with hc | hc
      · rw [hnorev p (mem_coordList.mpr hpin)] at hc
        exact absurd hc (by simp)
      · exact hc
  have hsweep : correctFlagSweep F.1.w F.1.h F.1.grid = [] := by
    unfold correctFlagSweep
    have hfil : (coordList F.1.w F.1.h).filter
        (fun p => (F.1.grid p).isMine && (F.1.grid p).isFlagged) = [] := by
      rw [List.filter_eq_nil_iff]
      intro a ha
      have ha' : a ∈ coordList b.w b.h := by
        rw [row, roh] at ha
        exact ha
      rw [(ropw a).2.1, hnofl a ha']
      simp
    rw [hfil]
    rfl
  rw [reveal, if_neg hterm, if_pos hin, if_neg hguard, hb1]
  rw [if_neg (by rw [hmine]; simp)]
  by_cases hwin : checkWin (bfs b.w b.h (9 * (b.w * b.h) + 1) b [(x, y)] []).1 = true
  · rw [if_pos hwin]
    refine ⟨_, rfl, ?_, ?_, ?_⟩
    · intro p hpin
      exact hiff p hpin
    · show (((bfs b.w b.h (9 * (b.w * b.h) + 1) b [(x, y)] []).2
        ++ correctFlagSweep _ _ _).map (fun d => (d.x, d.y))).Nodup
      rw [hopen_t, show correctFlagSweep (bfs b.w b.h (9 * (b.w * b.h) + 1) b
        [(x, y)] []).1.w (bfs b.w b.h (9 * (b.w * b.h) + 1) b [(x, y)] []).1.h
        (bfs b.w b.h (9 * (b.w * b.h) + 1) b [(x, y)] []).1.grid = [] from hsweep]
      rw [List.append_nil]
      exact htnodup
    · intro p hpin
      show (∃ d ∈ (bfs b.w b.h (9 * (b.w * b.h) + 1) b [(x, y)] []).2
        ++ correctFlagSweep _ _ _, (d.x, d.y) = p) ↔ _
      rw [hopen_t, show correctFlagSweep (bfs b.w b.h (9 * (b.w * b.h) + 1) b
        [(x, y)] []).1.w (bfs b.w b.h (9 * (b.w * b.h) + 1) b [(x, y)] []).1.h
        (bfs b.w b.h (9 * (b.w * b.h) + 1) b [(x, y)] []).1.grid = [] from hsweep]
      rw [List.append_nil]
      exact hopened_iff p hpin
  · rw [if_neg hwin]
    refine ⟨_, rfl, ?_, ?_, ?_⟩
    · intro p hpin
      exact hiff p hpin
    · show (((bfs b.w b.h (9 * (b.w * b.h) + 1) b [(x, y)] []).2).map
        (fun d => (d.x, d.y))).Nodup
      rw [hopen_t]
      exact htnodup
    · intro p hpin
      show (∃ d ∈ (bfs b.w b.h (9 * (b.w * b.h) + 1) b [(x, y)] []).2, (d.x, d.y) = p) ↔ _
      rw [hopen_t]
      exact hopened_iff p hpin

/-! ### A concrete play-through used by the claims' witnesses and
counterexamples

On a `5×1` board with two requested mines and every random draw equal to `1`,
the first click on `(0,0)` places mines at `(2,0)` and `(4,0)` and opens
`(0,0)` and `(1,0)`.  Flagging `(2,0)` and then revealing `(3,0)` wins the
game; revealing `(4,0)` instead loses it, and the loss sweep force-reveals
the flagged mine `(2,0)` without clearing its flag. -/

def randS : Nat → Nat := fun _ => 1

def bS0 : Board := mkBoard 5 1 2

def bS1 : Board := match reveal randS bS0 0 0 with
  | some p => p.1
  | none => bS0

def rS1 : RevealRes := match reveal randS bS0 0 0 with
  | some p => p.2
  | none => ⟨[], false, false⟩

def bS2 : Board := match toggleFlag bS1 2 0 false with
  | some p => p.1
  | none => bS1

def rS2 : FlagRes := match toggleFlag bS1 2 0 false with
  | some p => p.2
  | none => ⟨[], none⟩

def bSW : Board := match reveal randS bS2 3 0 with
  | some p => p.1
  | none => bS0

def rSW : RevealRes := match reveal randS bS2 3 0 with
  | some p => p.2
  | none => ⟨[], false, false⟩

def bSL : Board := match reveal randS bS2 4 0 with
  | some p => p.1
  | none => bS0

def rSL : RevealRes := match reveal randS bS2 4 0 with
  | some p => p.2
  | none => ⟨[], false, false⟩

theorem reveal_bS0_eq : reveal randS bS0 0 0 = some (bS1, rS1) := rfl

theorem flag_bS1_eq : toggleFlag bS1 2 0 false = some (bS2, rS2) := rfl

theorem reveal_bS2_won_eq : reveal randS bS2 3 0 = some (bSW, rSW) := rfl

theorem reveal_bS2_lost_eq : reveal randS bS2 4 0 = some (bSL, rSL) := rfl

theorem reach_bS1 : Reachable bS1 :=
  Reachable.reveal randS 0 0 (Reachable.init 5 1 2 (by decide)) reveal_bS0_eq

theorem reach_bS2 : Reachable bS2 :=
  Reachable.flag 2 0 false reach_bS1 flag_bS1_eq

theorem reach_bSW : Reachable bSW :=
  Reachable.reveal randS 3 0 reach_bS2 reveal_bS2_won_eq

theorem reach_bSL : Reachable bSL :=
  Reachable.reveal randS 4 0 reach_bS2 reveal_bS2_lost_eq

/-! On a `3×1` board with no mines at all, every cell lies in one connected
zero-adjacency region; flagging `(2,0)` before the first reveal makes the
flood fill from `(0,0)` stop short of `(2,0)`. -/

def bF0 : Board := mkBoard 3 1 0

def bF1 : Board := match toggleFlag bF0 2 0 false with
  | some p => p.1
  | none => bF0

def rF1 : FlagRes := match toggleFlag bF0 2 0 false with
  | some p => p.2
  | none => ⟨[], none⟩

def bF2 : Board := match reveal randS bF1 0 0 with
  | some p => p.1
  | none => bF0

def rF2 : RevealRes := match reveal randS bF1 0 0 with
  | some p => p.2
  | none => ⟨[], false, false⟩

theorem flag_bF0_eq : toggleFlag bF0 2 0 false = some (bF1, rF1) := rfl

theorem reveal_bF1_eq : reveal randS bF1 0 0 = some (bF2, rF2) := rfl

theorem reach_bF2 : Reachable bF2 :=
  Reachable.reveal randS 0 0
    (Reachable.flag 2 0 false (Reachable.init 3 1 0 (by decide)) flag_bF0_eq)
    reveal_bF1_eq

/-- The `5×1` board right after mine placement, before any cell is revealed:
the input for the flood-fill witness. -/
def bP : Board := placeMinesAvoiding randS bS0 0 0

/-! ### The claims -/

/-- C1 (counterexample): after losing the `5×1` game, the flagged mine
`(2,0)` has been force-revealed by the loss sweep and still carries its
flag, so a revealed cell can carry `isFlagged`, against the claim. -/
theorem C1_revealed_flag_cex :
    Reachable bSL
    ∧ (bSL.grid (2, 0)).isRevealed = true
    ∧ (bSL.grid (2, 0)).isFlagged = true :=
  ⟨reach_bSL, by decide, by decide⟩

/-- C1 (amended): in every reachable state, a revealed cell that still
carries a flag is necessarily a mine, and the game is necessarily lost —
only the loss sweep reveals a cell without clearing its flag.  (The original
claim is false: the loss sweep leaves flags on the mines it force-reveals,
and `reveal` never clears `isQuestion`.) -/
theorem C1_revealed_flag_lost_mine {b : Board} (hr : Reachable b) {p : Int × Int}
    (hp : p ∈ coords b) (hrev : (b.grid p).isRevealed = true)
    (hfl : (b.grid p).isFlagged = true) :
    (b.grid p).isMine = true ∧ b.state = GState.lost := by
  have hinv := reachable_inv hr
  have hm := hinv.2.2.1 p hp hrev hfl
  refine ⟨hm, ?_⟩
  by_contra hne
  have := hinv.2.2.2.2.2 hne p hp hrev
  rw [hm] at this
  exact absurd this (by simp)

/-- C1 (witness): the amended statement applied to the lost `5×1` board at
the flagged revealed mine `(2,0)`. -/
theorem C1_revealed_flag_witness :
    (bSL.grid (2, 0)).isMine = true ∧ bSL.state = GState.lost :=
  C1_revealed_flag_lost_mine reach_bSL (by decide) (by decide) (by decide)

/-- C2: on a fresh board (mines not yet placed), revealing any in-bounds,
unflagged cell commits a layout in which the clicked cell and all of its
in-bounds neighbors (the avoid set) are mine-free, the reveal does not
explode, and the resulting state is not `lost`. -/
theorem C2_first_reveal_safe {rand : Nat → Nat} {b b' : Board} {res : RevealRes}
    {x y : Int} (hinv : BoardInv b) (hfc : b.firstClick = true)
    (hin : inB b.w b.h x y = true)
    (hfl : (b.grid (x, y)).isFlagged = false)
    (hrv : reveal rand b x y = some (b', res)) :
    (∀ p ∈ avoidList b.w b.h x y,
      ((placeMinesAvoiding rand b x y).grid p).isMine = false)
    ∧ res.exploded = false ∧ b'.state ≠ GState.lost := by
  obtain ⟨hready, hm0, hfresh⟩ := hinv.2.2.2.1 hfc
  have hrev0 : (b.grid (x, y)).isRevealed = false :=
    (hfresh (x, y) (mem_coordList.mpr hin)).2
  have hmines : ∀ p ∈ avoidList b.w b.h x y,
      ((placeMinesAvoiding rand b x y).grid p).isMine = false := by
    intro p hp
    have hpin : inB b.w b.h p.1 p.2 = true := by
      rcases List.mem_cons.mp hp with h | h
      · subst h
        exact hin
      · exact mem_neighborsList_inB h
    exact placeMines_avoid_mineFree (fun q hq => (hfresh q hq).1) hp
      (mem_coordList.mpr hpin)
  rw [reveal_place_eq hfc hready hin hfl hrev0] at hrv
  obtain ⟨hinv', hw', hh', hmc', hfc', hflc', hm', hf', hmono', hsound', hexT,
    hexF, hkeep, hmineT, hsafe⟩ := reveal_full (inv_placeMines hinv hfc hin) rfl hrv
  have hxy_nm : ((placeMinesAvoiding rand b x y).grid (x, y)).isMine = false :=
    hmines (x, y) (List.mem_cons_self _ _)
  have hexp : res.exploded = false := by
    cases hex : res.exploded
    · rfl
    · exact absurd (hexT hex).2.2 (by rw [hxy_nm]; simp)
  refine ⟨hmines, hexp, ?_⟩
  rcases hexF hexp with hstc | hstc
  · rw [hstc]
    show GState.playing ≠ GState.lost
    decide
  · rw [hstc.1]
    decide

/-- C2 (witness): the first reveal at `(0,0)` of the `5×1` board leaves
`(0,0)` and `(1,0)` mine-free and does not lose. -/
theorem C2_first_reveal_witness :
    (∀ p ∈ avoidList bS0.w bS0.h 0 0,
      ((placeMinesAvoiding randS bS0 0 0).grid p).isMine = false)
    ∧ rS1.exploded = false ∧ bS1.state ≠ GState.lost :=
  C2_first_reveal_safe (by unfold BoardInv CountersOK AdjOK FlagRevOK PhaseOK; decide)
    (by decide) (by decide) (by decide) reveal_bS0_eq

/-- C3: in every reachable state with mines placed, `checkWin` holds exactly
when `w*h - revealedCount = mineCount` and the state is not `lost`, and that
arithmetic condition holds if and only if every non-mine cell is revealed,
regardless of the flag state of any cell. -/
theorem C3_win_condition {b : Board} (hr : Reachable b) (hfc : b.firstClick = false) :
    (checkWin b = true
      ↔ ((b.w * b.h : Int) - b.revealedCount = b.mineCount ∧ b.state ≠ GState.lost))
    ∧ (checkWin b = true
      ↔ (b.state ≠ GState.lost ∧ ∀ p ∈ coords b,
          (b.grid p).isMine = false → (b.grid p).isRevealed = true)) := by
  refine ⟨?_, checkWin_iff (reachable_inv hr) hfc⟩
  unfold checkWin
  rw [Bool.and_eq_true, decide_eq_true_eq, decide_eq_true_eq]

/-- C3 (witness): the win condition evaluated on the won `5×1` board. -/
theorem C3_win_condition_witness :
    (checkWin bSW = true
      ↔ ((bSW.w * bSW.h : Int) - bSW.revealedCount = bSW.mineCount
          ∧ bSW.state ≠ GState.lost))
    ∧ (checkWin bSW = true
      ↔ (bSW.state ≠ GState.lost ∧ ∀ p ∈ coords bSW,
          (bSW.grid p).isMine = false → (bSW.grid p).isRevealed = true)) :=
  C3_win_condition reach_bSW (by decide)

/-- C4 (counterexample): on the mine-free `3×1` board, `(0,0)`, `(1,0)` and
`(2,0)` form one connected zero-adjacency region, yet the reveal at `(0,0)`
leaves the flagged cell `(2,0)` unrevealed: a flag blocks the flood fill, so
the claim's unconditional "reveals the entire connected zero-region" is
false. -/
theorem C4_flood_fill_cex :
    Reachable bF2
    ∧ reveal randS bF1 0 0 = some (bF2, rF2)
    ∧ ZeroReach bF2.w bF2.h bF2.grid (0, 0) (2, 0)
    ∧ (bF2.grid (0, 0)).isRevealed = true
    ∧ (bF2.grid (2, 0)).isRevealed = false :=
  ⟨reach_bF2, reveal_bF1_eq,
    ZeroReach.step (p := (1, 0)) (n := (2, 0))
      (ZeroReach.step (p := (0, 0)) (n := (1, 0)) ZeroReach.base (by decide)
        (by decide) (by decide))
      (by decide) (by decide) (by decide),
    by decide, by decide⟩

/-- C4 (amended): on a board with correct adjacency counts, in the `playing`
phase with mines placed and no cell flagged or revealed, revealing a
zero-adjacency cell reveals exactly the reveal closure of the click — the
connected zero-region through the clicked cell together with its bordering
cells — and the opened list names each revealed cell exactly once.  (The
original claim is false without the no-flags hypothesis: a flagged cell
blocks the flood fill.) -/
theorem C4_flood_fill_exact {rand : Nat → Nat} {b : Board} {x y : Int}
    (hadj : AdjOK b)
    (hst : b.state = GState.playing)
    (hfc : b.firstClick = false)
    (hnofl : ∀ p ∈ coords b, (b.grid p).isFlagged = false)
    (hnorev : ∀ p ∈ coords b, (b.grid p).isRevealed = false)
    (hin : inB b.w b.h x y = true)
    (hz : (b.grid (x, y)).adj = 0) :
    ∃ br : Board × RevealRes, reveal rand b x y = some br
    ∧ (∀ p : Int × Int, inB b.w b.h p.1 p.2 = true →
        ((br.1.grid p).isRevealed = true ↔ ZeroReach b.w b.h b.grid (x, y) p))
    ∧ (br.2.opened.map (fun d => (d.x, d.y))).Nodup
    ∧ (∀ p : Int × Int, inB b.w b.h p.1 p.2 = true →
        ((∃ d ∈ br.2.opened, (d.x, d.y) = p) ↔ ZeroReach b.w b.h b.grid (x, y) p)) :=
  reveal_flood_exact hadj hst hfc hnofl hnorev hin hz

/-- C4 (witness): the amended statement applied to the `5×1` board right
after mine placement, revealing the zero-adjacency cell `(0,0)`. -/
theorem C4_flood_fill_witness :
    ∃ br : Board × RevealRes, reveal randS bP 0 0 = some br
    ∧ (∀ p : Int × Int, inB bP.w bP.h p.1 p.2 = true →
        ((br.1.grid p).isRevealed = true ↔ ZeroReach bP.w bP.h bP.grid (0, 0) p))
    ∧ (br.2.opened.map (fun d => (d.x, d.y))).Nodup
    ∧ (∀ p : Int × Int, inB bP.w bP.h p.1 p.2 = true →
        ((∃ d ∈ br.2.opened, (d.x, d.y) = p) ↔ ZeroReach bP.w bP.h bP.grid (0, 0) p)) :=
  C4_flood_fill_exact (by unfold AdjOK; decide) (by decide) (by decide)
    (by decide) (by decide) (by decide) (by decide)

/-- C5: in every reachable state, `revealedCount` equals the number of
revealed non-mine cells and `flaggedCount` equals the number of flagged
cells, across reveal, flag toggling, chording and the loss sweep. -/
theorem C5_counter_agreement {b : Board} (hr : Reachable b) :
    b.revealedCount = (cntRevSafe b : Int)
    ∧ b.flaggedCount = (cntFlag b : Int) :=
  (reachable_inv hr).1

/-- C5 (witness): the counters of the won `5×1` board (four revealed safe
cells, one flag). -/
theorem C5_counter_witness :
    bSW.revealedCount = (cntRevSafe bSW : Int)
    ∧ bSW.flaggedCount = (cntFlag bSW : Int) :=
  C5_counter_agreement reach_bSW

/-- C6: placing mines on a fresh board puts down exactly
`min(mineCount, w*h - |avoid set|)` mines — the stored `mineCount` is
clamped to that value and equals the number of mine cells actually placed —
and from then on every reachable state keeps `mineCount` equal to the number
of mine cells on the grid. -/
theorem C6_mine_clamp {rand : Nat → Nat} {b : Board} {sx sy : Int}
    (hinv : BoardInv b) (hfc : b.firstClick = true)
    (hin : inB b.w b.h sx sy = true) :
    (placeMinesAvoiding rand b sx sy).mineCount
      = min b.mineCount ((b.w * b.h : Int) - ((avoidList b.w b.h sx sy).length : Int))
    ∧ ((cntMine (placeMinesAvoiding rand b sx sy) : Int)
      = (placeMinesAvoiding rand b sx sy).mineCount)
    ∧ (∀ c : Board, Reachable c → c.firstClick = false →
        c.mineCount = (cntMine c : Int)) := by
  refine ⟨rfl, ?_, ?_⟩
  · exact ((inv_placeMines hinv hfc hin).2.2.2.2.1 rfl).2.symm
  · intro c hc hfcc
    exact ((reachable_inv hc).2.2.2.2.1 hfcc).2

/-- C6 (witness): the clamp evaluated for the `5×1` board's first click at
`(0,0)`: the avoid set has two cells, so `min 2 (5 - 2) = 2` mines are
placed. -/
theorem C6_mine_clamp_witness :
    (placeMinesAvoiding randS bS0 0 0).mineCount
      = min bS0.mineCount ((bS0.w * bS0.h : Int) - ((avoidList bS0.w bS0.h 0 0).length : Int))
    ∧ ((cntMine (placeMinesAvoiding randS bS0 0 0) : Int)
      = (placeMinesAvoiding randS bS0 0 0).mineCount)
    ∧ (∀ c : Board, Reachable c → c.firstClick = false →
        c.mineCount = (cntMine c : Int)) :=
  C6_mine_clamp (by unfold BoardInv CountersOK AdjOK FlagRevOK PhaseOK; decide)
    (by decide) (by decide)

/-- C7: chording is a no-op (board unchanged, empty result) outside the
`playing` phase, on an unrevealed or zero-adjacency cell, and when the
flagged-neighbor count differs from `adj`; when every condition holds it
reveals the unflagged, unrevealed neighbors and explodes exactly when one of
them is a mine, in which case it triggers the same loss sweep as a direct
mine reveal. -/
theorem C7_chord_behavior {rand : Nat → Nat} {b : Board} (x y : Int)
    (hr : Reachable b) :
    (b.state ≠ GState.playing → chord rand b x y = some (b, ⟨[], false, false⟩))
    ∧ (b.state = GState.playing → inB b.w b.h x y = true →
        (¬(b.grid (x, y)).isRevealed = true ∨ (b.grid (x, y)).adj ≤ 0
          ∨ (((neighborsList b.w b.h x y).filter
              (fun p => (b.grid p).isFlagged)).length : Int) ≠ (b.grid (x, y)).adj) →
        chord rand b x y = some (b, ⟨[], false, false⟩))
    ∧ (b.state = GState.playing → inB b.w b.h x y = true →
        (b.grid (x, y)).isRevealed = true → 0 < (b.grid (x, y)).adj →
        (((neighborsList b.w b.h x y).filter
            (fun p => (b.grid p).isFlagged)).length : Int) = (b.grid (x, y)).adj →
        ∃ br : Board × RevealRes, chord rand b x y = some br
          ∧ (br.2.exploded = true ↔ ∃ n ∈ neighborsList b.w b.h x y,
              (b.grid n).isMine = true ∧ (b.grid n).isFlagged = false
                ∧ (b.grid n).isRevealed = false)
          ∧ (br.2.exploded = true → br.1.state = GState.lost
              ∧ ∀ p ∈ coords b, (b.grid p).isMine = true →
                  (br.1.grid p).isRevealed = true)) := by
  have hinv := reachable_inv hr
  refine ⟨?_, ?_, ?_⟩
  · intro hnp
    rw [chord, if_pos hnp]
  · intro hst hin hbad
    have hpl : ¬(b.state ≠ GState.playing) := by rw [hst]; simp
    rw [chord, if_neg hpl, if_pos hin]
    rcases hbad with hb1 | hb2 | hb3
    · rw [if_pos (Or.inl hb1)]
    · rw [if_pos (Or.inr hb2)]
    · by_cases hg : ¬(b.grid (x, y)).isRevealed = true ∨ (b.grid (x, y)).adj ≤ 0
      · rw [if_pos hg]
      · rw [if_neg hg, if_pos hb3]
  · intro hst hin hrev hpos hflags
    have hpl : ¬(b.state ≠ GState.playing) := by rw [hst]; simp
    have hguard : ¬(¬(b.grid (x, y)).isRevealed = true ∨ (b.grid (x, y)).adj ≤ 0) := by
      rintro (hc | hc)
      · exact hc hrev
      · omega
    have hflne : ¬((((neighborsList b.w b.h x y).filter
        (fun p => (b.grid p).isFlagged)).length : Int) ≠ (b.grid (x, y)).adj) :=
      fun hc => hc hflags
    rw [chord, if_neg hpl, if_pos hin, if_neg hguard, if_neg hflne]
    have hfc := state_playing_firstClick hinv hst
    obtain ⟨⟨bf, ef, oc⟩, hcl, hinv1, hw1, hh1, hmc1, hfc1, hm1, hf1, hmono1, hef1,
      hback1, hlost1⟩ := @chordLoop_main rand (neighborsList b.w b.h x y) b false []
      hinv hfc (fun p hp => mem_neighborsList_inB hp)
    rw [hcl]
    refine ⟨(bf, ⟨oc, ef, checkWin bf⟩), rfl, ?_, ?_⟩
    · constructor
      · intro hex
        rcases hback1 hex with hfalse | hn
        · exact absurd hfalse (by simp)
        · exact hn
      · intro hn
        have hxyc : (x, y) ∈ coords b := mem_coordList.mpr hin
        have hadjxy := hinv.2.1 (x, y) hxyc
        have hnm : (b.grid (x, y)).isMine = false := by
          cases hm : (b.grid (x, y)).isMine
          · rfl
          · exfalso
            rw [if_pos hm] at hadjxy
            omega
        rw [if_neg (by rw [hnm]; simp)] at hadjxy
        unfold mineNbrCount at hadjxy
        dsimp only at hadjxy
        have hlen : ((neighborsList b.w b.h x y).filter
            (fun p => (b.grid p).isMine)).length
            = ((neighborsList b.w b.h x y).filter
                (fun p => (b.grid p).isFlagged)).length := by
          omega
        have heq : (neighborsList b.w b.h x y).countP (fun p => (b.grid p).isMine)
            = (neighborsList b.w b.h x y).countP (fun p => (b.grid p).isFlagged) := by
          rw [List.countP_eq_length_filter, List.countP_eq_length_filter]
          exact hlen
        have hcnt : 0 < (neighborsList b.w b.h x y).countP
            (fun p => (b.grid p).isMine && !(b.grid p).isFlagged) := by
          obtain ⟨n, hnmem, hnmine, hnflag, -⟩ := hn
          refine List.countP_pos_iff.mpr ⟨n, hnmem, ?_⟩
          rw [hnmine, hnflag]
          rfl
        rw [countP_exchange heq] at hcnt
        obtain ⟨f, hfmem, hff⟩ := List.countP_pos_iff.mp hcnt
        rw [Bool.and_eq_true, Bool.not_eq_true'] at hff
        have hfwit : ∃ f ∈ coords b, (b.grid f).isFlagged = true
            ∧ (b.grid f).isMine = false :=
          ⟨f, mem_neighborsList_coords hfmem, hff.1, hff.2⟩
        obtain ⟨br', hcl', hex'⟩ := @chordLoop_explodes rand
          (neighborsList b.w b.h x y) b false [] hinv hst hfc
          (fun p hp => mem_neighborsList_inB hp) hfwit hn
        rw [hcl] at hcl'
        simp only [Option.some.injEq] at hcl'
        rw [← hcl'] at hex'
        exact hex'
    · intro hex
      rcases hlost1 hex with hfalse | hl
      · exact absurd hfalse (by simp)
      · exact hl

/-- C7 (witness): chording on the in-progress `5×1` board at the revealed
numbered cell `(1,0)` (whose single mine neighbor is not yet flagged). -/
theorem C7_chord_witness :
    (bS1.state ≠ GState.playing → chord randS bS1 1 0 = some (bS1, ⟨[], false, false⟩))
    ∧ (bS1.state = GState.playing → inB bS1.w bS1.h 1 0 = true →
        (¬(bS1.grid (1, 0)).isRevealed = true ∨ (bS1.grid (1, 0)).adj ≤ 0
          ∨ (((neighborsList bS1.w bS1.h 1 0).filter
              (fun p => (bS1.grid p).isFlagged)).length : Int) ≠ (bS1.grid (1, 0)).adj) →
        chord randS bS1 1 0 = some (bS1, ⟨[], false, false⟩))
    ∧ (bS1.state = GState.playing → inB bS1.w bS1.h 1 0 = true →
        (bS1.grid (1, 0)).isRevealed = true → 0 < (bS1.grid (1, 0)).adj →
        (((neighborsList bS1.w bS1.h 1 0).filter
            (fun p => (bS1.grid p).isFlagged)).length : Int) = (bS1.grid (1, 0)).adj →
        ∃ br : Board × RevealRes, chord randS bS1 1 0 = some br
          ∧ (br.2.exploded = true ↔ ∃ n ∈ neighborsList bS1.w bS1.h 1 0,
              (bS1.grid n).isMine = true ∧ (bS1.grid n).isFlagged = false
                ∧ (bS1.grid n).isRevealed = false)
          ∧ (br.2.exploded = true → br.1.state = GState.lost
              ∧ ∀ p ∈ coords bS1, (bS1.grid p).isMine = true →
                  (br.1.grid p).isRevealed = true)) :=
  C7_chord_behavior 1 0 reach_bS1

/-- C8 (counterexample): on the lost `5×1` board, `toggleFlag` at the
in-bounds cell `(0,0)` returns a one-element `changed` list, not the empty
delta list the claim promises for a terminal phase. -/
theorem C8_terminal_toggle_cex :
    Reachable bSL ∧ bSL.state = GState.lost
    ∧ (toggleFlag bSL 0 0 false).map (fun p => p.2.changed.length) = some 1 :=
  ⟨reach_bSL, by decide, by decide⟩

/-- C8 (amended): with the phase terminal (`won` or `lost`) and the row
index `y` in range, `toggleFlag` mutates nothing and plays no sound, but
its `changed` list is a singleton carrying the raw grid read at `(x, y)` —
the untouched cell when `x` is also in range, `undefined` when it is not —
rather than the empty list.  (A `y` out of range throws in every phase; see
C9.) -/
theorem C8_terminal_toggle {b : Board} {x y : Int} {q : Bool}
    (hterm : b.state = GState.lost ∨ b.state = GState.won)
    (hy : 0 ≤ y ∧ y < (b.h : Int)) :
    toggleFlag b x y q
      = some (b, ⟨[⟨x, y, if 0 ≤ x ∧ x < (b.w : Int) then some (b.grid (x, y))
          else none⟩], none⟩) := by
  simp only [toggleFlag]
  rw [if_pos hy, if_pos hterm]

/-- C8 (witness): the amended statement applied to the lost `5×1` board at
the in-bounds cell `(0,0)` and at `(9,0)`, whose column is out of range, so
the returned singleton carries the undefined cell. -/
theorem C8_terminal_toggle_witness :
    toggleFlag bSL 0 0 false
      = some (bSL, ⟨[⟨0, 0, some (bSL.grid (0, 0))⟩], none⟩)
    ∧ toggleFlag bSL 9 0 false = some (bSL, ⟨[⟨9, 0, none⟩], none⟩) :=
  ⟨C8_terminal_toggle (Or.inl (by decide)) (by decide),
    C8_terminal_toggle (Or.inl (by decide)) (by decide)⟩

/-- C9 (counterexample): out-of-bounds coordinates do not always fail fast:
on the lost `5×1` board, `reveal` and `chord` at `(9,9)` return the empty
result silently, and `toggleFlag` at `(9,0)` — row in range, column out of
range — returns a singleton `changed` entry carrying an undefined cell
instead of throwing. -/
theorem C9_oob_cex :
    inB bSL.w bSL.h 9 9 = false
    ∧ inB bSL.w bSL.h 9 0 = false
    ∧ reveal randS bSL 9 9 = some (bSL, ⟨[], false, false⟩)
    ∧ chord randS bSL 9 9 = some (bSL, ⟨[], false, false⟩)
    ∧ toggleFlag bSL 9 0 false = some (bSL, ⟨[⟨9, 0, none⟩], none⟩) := by
  refine ⟨by decide, by decide, reveal_terminal (Or.inl (by decide)), ?_, rfl⟩
  rw [chord, if_pos (show bSL.state ≠ GState.playing by decide)]

/-- C9 (amended): an out-of-bounds coordinate makes `toggleFlag` throw
whenever the row index `y` is out of range (in every phase) and whenever
the phase is not terminal (for any out-of-bounds coordinate), makes
`reveal` throw whenever the phase is not terminal, and makes `chord` throw
whenever the phase is `playing`.  In the remaining situations the methods
return silently: `reveal` and `chord` return the empty result on a terminal
board, and `toggleFlag` with `y` in range returns a singleton `changed`
entry carrying an undefined cell. -/
theorem C9_oob_errors {rand : Nat → Nat} {b : Board} {x y : Int}
    (hoob : inB b.w b.h x y = false) :
    (¬(0 ≤ y ∧ y < (b.h : Int)) → ∀ q : Bool, toggleFlag b x y q = none)
    ∧ (¬(b.state = GState.lost ∨ b.state = GState.won) →
        ∀ q : Bool, toggleFlag b x y q = none)
    ∧ (¬(b.state = GState.lost ∨ b.state = GState.won) → reveal rand b x y = none)
    ∧ (b.state = GState.playing → chord rand b x y = none) := by
  have hoob' : ¬(inB b.w b.h x y = true) := by rw [hoob]; simp
  refine ⟨?_, ?_, ?_, ?_⟩
  · intro hy q
    simp only [toggleFlag]
    rw [if_neg hy]
  · intro hterm q
    simp only [toggleFlag]
    by_cases hy : 0 ≤ y ∧ y < (b.h : Int)
    · rw [if_pos hy, if_neg hterm]
      have hx : ¬(0 ≤ x ∧ x < (b.w : Int)) := by
        intro hc
        exact hoob' (by rw [inB_iff]; exact ⟨hc.1, hy.1, hc.2, hy.2⟩)
      rw [if_neg hx]
    · rw [if_neg hy]
  · intro hterm
    rw [reveal, if_neg hterm, if_neg hoob']
  · intro hst
    rw [chord, if_neg (show ¬(b.state ≠ GState.playing) by rw [hst]; simp),
      if_neg hoob']

/-- C9 (witness): the amended statement applied to the in-progress `5×1`
board at the out-of-bounds coordinate `(9,9)` (both the row-missing and the
non-terminal-phase clause make this `toggleFlag` throw). -/
theorem C9_oob_witness :
    (¬(0 ≤ (9 : Int) ∧ (9 : Int) < (bS1.h : Int)) →
        ∀ q : Bool, toggleFlag bS1 9 9 q = none)
    ∧ (¬(bS1.state = GState.lost ∨ bS1.state = GState.won) →
        ∀ q : Bool, toggleFlag bS1 9 9 q = none)
    ∧ (¬(bS1.state = GState.lost ∨ bS1.state = GState.won) →
        reveal randS bS1 9 9 = none)
    ∧ (bS1.state = GState.playing → chord randS bS1 9 9 = none) :=
  C9_oob_errors (by decide)

/-- With mines already placed, every entry of a non-exploding reveal's
`opened` list that is not a `correctFlag` marker carries a non-mine cell. -/
theorem reveal_opened_aux {rand : Nat → Nat} {b b' : Board} {res : RevealRes}
    {x y : Int} (hinv : BoardInv b) (hfc : b.firstClick = false)
    (hrv : reveal rand b x y = some (b', res)) (hex : res.exploded = false) :
    ∀ d ∈ res.opened, d.correctFlag = false → d.cell.isMine = false := by
  simp only [reveal] at hrv
  by_cases h1 : b.state = GState.lost ∨ b.state = GState.won
  · rw [if_pos h1] at hrv
    simp only [Option.some.injEq, Prod.mk.injEq] at hrv
    obtain ⟨-, hres⟩ := hrv
    intro d hd
    rw [← hres] at hd
    exact absurd hd (by simp)
  rw [if_neg h1] at hrv
  by_cases h2 : inB b.w b.h x y = true
  case neg =>
    rw [if_neg (by simpa using h2)] at hrv
    exact absurd hrv (by simp)
  rw [if_pos h2] at hrv
  by_cases h3 : (b.grid (x, y)).isFlagged = true ∨ (b.grid (x, y)).isRevealed = true
  · rw [if_pos h3] at hrv
    simp only [Option.some.injEq, Prod.mk.injEq] at hrv
    obtain ⟨-, hres⟩ := hrv
    intro d hd
    rw [← hres] at hd
    exact absurd hd (by simp)
  rw [if_neg h3] at hrv
  have hb1 : (if b.firstClick = true then placeMinesAvoiding rand b x y else b) = b := by
    rw [hfc]
    simp
  rw [hb1] at hrv
  by_cases h4 : (b.grid (x, y)).isMine = true
  · rw [if_pos h4] at hrv
    simp only [Option.some.injEq, Prod.mk.injEq] at hrv
    obtain ⟨-, hres⟩ := hrv
    rw [← hres] at hex
    exact absurd hex (by simp)
  · rw [if_neg h4] at hrv
    have h4' : (b.grid (x, y)).isMine = false := eq_false_of_ne_true h4
    have hmaster := bfs_master b.w b.h (9 * (b.w * b.h) + 1) b [(x, y)] [] rfl rfl
      (by
        intro p hp
        rcases List.mem_cons.mp hp with rfl | hp'
        · exact ⟨h2, h4'⟩
        · simp at hp')
      hinv.2.1
    set F := bfs b.w b.h (9 * (b.w * b.h) + 1) b [(x, y)] [] with hF
    obtain ⟨-, -, t, hteq, htfacts, -, -, -⟩ := hmaster
    have hdok : ∀ d ∈ t, d.correctFlag = false → d.cell.isMine = false := by
      intro d hd _
      have hf := htfacts d hd
      rw [hf.2.2.2.2.1]
      exact hf.2.2.1
    by_cases h5 : checkWin F.1 = true
    · rw [if_pos (by rw [h5])] at hrv
      simp only [Option.some.injEq, Prod.mk.injEq] at hrv
      obtain ⟨-, hres⟩ := hrv
      intro d hd hcf
      rw [← hres] at hd
      have hd' : d ∈ F.2 ++ correctFlagSweep F.1.w F.1.h F.1.grid := hd
      rw [hteq] at hd'
      simp only [List.nil_append] at hd'
      rw [List.mem_append] at hd'
      rcases hd' with hd' | hd'
      · exact hdok d hd' hcf
      · have := correctFlagSweep_marks _ _ _ d hd'
        rw [this] at hcf
        exact absurd hcf (by simp)
    · rw [if_neg (by rw [Bool.not_eq_true] at h5 ⊢; rw [h5])] at hrv
      simp only [Option.some.injEq, Prod.mk.injEq] at hrv
      obtain ⟨-, hres⟩ := hrv
      intro d hd hcf
      rw [← hres] at hd
      have hd' : d ∈ F.2 := hd
      rw [hteq] at hd'
      simp only [List.nil_append] at hd'
      exact hdok d hd' hcf

/-- C10 (counterexample): the winning reveal at `(3,0)` of the `5×1` board
does not explode, yet its `opened` list contains the `correctFlag` marker
for the flagged mine `(2,0)` — an entry whose cell is a mine — so "every
cell in the returned opened list is a non-mine cell" is false as stated. -/
theorem C10_opened_nonmine_cex :
    Reachable bS2
    ∧ reveal randS bS2 3 0 = some (bSW, rSW)
    ∧ (bS2.grid (3, 0)).isMine = false
    ∧ rSW.exploded = false
    ∧ rSW.opened.any (fun d => d.cell.isMine) = true :=
  ⟨reach_bS2, reveal_bS2_won_eq, by decide, by decide, by decide⟩

/-- C10 (amended): in any valid state, a reveal that reports
`exploded = false` only ever opens non-mine cells, except for the
`correctFlag` markers the win sweep appends for flagged mines (which are
reported, not newly revealed).  The flood fill itself can never reveal a
mine, since neighbors are enqueued only from zero-adjacency cells. -/
theorem C10_opened_nonmine {rand : Nat → Nat} {b b' : Board} {res : RevealRes}
    {x y : Int} (hinv : BoardInv b)
    (hrv : reveal rand b x y = some (b', res)) (hex : res.exploded = false) :
    ∀ d ∈ res.opened, d.correctFlag = false → d.cell.isMine = false := by
  cases hfc : b.firstClick
  · exact reveal_opened_aux hinv hfc hrv hex
  · obtain ⟨hready, hm0, hfresh⟩ := hinv.2.2.2.1 hfc
    by_cases h2 : inB b.w b.h x y = true
    · by_cases h3 : (b.grid (x, y)).isFlagged = true ∨ (b.grid (x, y)).isRevealed = true
      · rw [reveal, if_neg (by rw [hready]; simp), if_pos h2, if_pos h3] at hrv
        simp only [Option.some.injEq, Prod.mk.injEq] at hrv
        obtain ⟨-, hres⟩ := hrv
        intro d hd
        rw [← hres] at hd
        exact absurd hd (by simp)
      · push_neg at h3
        rw [reveal_place_eq hfc hready h2 (by simpa using h3.1)
          (by simpa using h3.2)] at hrv
        exact reveal_opened_aux (inv_placeMines hinv hfc h2) rfl hrv hex
    · rw [reveal, if_neg (by rw [hready]; simp), if_neg (by simpa using h2)] at hrv
      exact absurd hrv (by simp)

/-- C10 (witness): the amended statement applied to the winning reveal of
the `5×1` board. -/
theorem C10_opened_nonmine_witness :
    rSW.exploded = false
    ∧ (∀ d ∈ rSW.opened, d.correctFlag = false → d.cell.isMine = false) :=
  ⟨by decide,
    C10_opened_nonmine (by unfold BoardInv CountersOK AdjOK FlagRevOK PhaseOK; decide)
      reveal_bS2_won_eq (by decide)⟩
